import Mathlib

set_option maxRecDepth 8000

/-!
Verification development for `auto_logo_cropper/cli.py`.

The Python source is shallowly embedded below: pure helper functions
(`hex2rgb`, `is_hex`, `parse_margin`, `resize_to_fit_bounding_box`) become
Lean functions; the argument validation in `parse_args` and the batch loop
in `main` become explicit `Except`-valued state passing over a small event
trace; the PIL collaborators (pixel rasters, `getbbox`, `crop`, `paste`,
`alpha_composite`) are modelled over a concrete list-of-rows raster type.
Python `int` arithmetic is modelled with `Nat`/`Int` (Python `//` is
`Int.fdiv`), and the IEEE-754 binary64 float arithmetic of
`resize_to_fit_bounding_box` is modelled exactly, as dyadic values with
correctly rounded (nearest, ties to even) division and multiplication.
-/

/-! ## Characters and small string helpers -/

/-- Hexadecimal digit value of a character, as accepted by Python's
`int(_, 16)` on a single digit: `0`-`9` (codes 48-57), `a`-`f` (codes
97-102), `A`-`F` (codes 65-70). -/
def hexDig (c : Char) : Option ℕ :=
  if 48 ≤ c.toNat ∧ c.toNat ≤ 57 then some (c.toNat - 48)
  else if 97 ≤ c.toNat ∧ c.toNat ≤ 102 then some (c.toNat - 87)
  else if 65 ≤ c.toNat ∧ c.toNat ≤ 70 then some (c.toNat - 55)
  else none

/-- A character lies in the regex class `[A-Fa-f0-9]`. -/
def isHexDig (c : Char) : Bool := (hexDig c).isSome

/-- `hex2rgb` from `cli.py`: assert `len(hex) == 6`, then parse the three
2-digit slices in base 16.  The `assert` and a non-hex slice are modelled
as `none` (in Python both raise, which is fatal). -/
def hex2rgb (hex : String) : Option (List ℕ) :=
  match hex.data with
  | [c1, c2, c3, c4, c5, c6] =>
    match hexDig c1, hexDig c2, hexDig c3, hexDig c4, hexDig c5, hexDig c6 with
    | some h1, some h2, some h3, some h4, some h5, some h6 =>
      some [16 * h1 + h2, 16 * h3 + h4, 16 * h5 + h6]
    | _, _, _, _, _, _ => none
  | _ => none

/-- `is_hex` from `cli.py`: `re.match("^[A-Fa-f0-9]{6}$", value)`.
Python's `$` also matches just before one trailing newline, which this
model reproduces: the string matches iff its first six characters are in
the class and it either ends there or has exactly one further `'\n'`. -/
def is_hex (value : String) : Bool :=
  let cs := value.data
  ((cs.take 6).length = 6 && (cs.take 6).all isHexDig) &&
    (cs.length = 6 || (cs.length = 7 && cs.getLast? = some '\n'))

/-- Split a character list at a separator character, like Python's
`str.split(sep)`: splitting the empty string yields `[[]]`. -/
def splitOnChar (sep : Char) : List Char → List (List Char)
  | [] => [[]]
  | c :: rest =>
    if c = sep then [] :: splitOnChar sep rest
    else
      match splitOnChar sep rest with
      | r :: rs => (c :: r) :: rs
      | [] => [[c]]

/-- Value of a non-empty all-decimal-digit character list. -/
def digitsVal (cs : List Char) : Option ℕ :=
  if cs ≠ [] ∧ cs.all (·.isDigit) then
    some (cs.foldl (fun n c => 10 * n + (c.toNat - 48)) 0)
  else none

/-- Python `int(s)` on the strings this program feeds it: an optional
sign followed by one or more decimal digits; anything else raises
`ValueError`, modelled as `none`. -/
def str2int (cs : List Char) : Option ℤ :=
  match cs with
  | '-' :: rest => (digitsVal rest).map (fun n => -(n : ℤ))
  | '+' :: rest => (digitsVal rest).map (fun n => (n : ℤ))
  | _ => (digitsVal cs).map (fun n => (n : ℤ))

/-- Python truthiness of the padded margin slots: `None` and `0` are
falsy, any other integer is truthy. -/
def pyTruthy (o : Option ℕ) : Bool :=
  match o with
  | none => false
  | some n => n != 0

/-- The `if d: ... elif c: ... elif b: ... elif a: ... else ...` cascade
of `parse_margin`, over the absolute values of the parsed integers padded
with `None` (line 24 of `cli.py`). -/
def margin_broadcast (vs : List ℕ) : List ℕ :=
  let a := vs[0]?
  let b := vs[1]?
  let c := vs[2]?
  let d := vs[3]?
  if pyTruthy d then [a.getD 0, b.getD 0, c.getD 0, d.getD 0]
  else if pyTruthy c then [a.getD 0, b.getD 0, c.getD 0, b.getD 0]
  else if pyTruthy b then [a.getD 0, b.getD 0, a.getD 0, b.getD 0]
  else if pyTruthy a then
    [a.getD 0, a.getD 0, a.getD 0, a.getD 0]
  else [0, 0, 0, 0]

/-- `parse_margin` from `cli.py`:
`a, b, c, d, *ignore = [abs(int(n)) for n in margin.split(",")] + [None] * 4`
followed by the truthiness cascade.  A `ValueError` from `int` (e.g. on
the empty string) is modelled as `none`. -/
def parse_margin (margin : String) : Option (List ℕ) :=
  ((splitOnChar ',' margin.data).mapM
      (fun cs => (str2int cs).map Int.natAbs)).map margin_broadcast

/-! ## Binary64 arithmetic (the interpreter's float semantics)

`resize_to_fit_bounding_box` computes with CPython floats: `int / int`
true division returns the IEEE-754 binary64 value nearest to the exact
quotient (ties to even), `float * int` converts the integer to binary64
and returns the correctly rounded product, and `int(_)` truncates toward
zero.  Positive finite doubles are represented here as dyadics `m * 2^e`
with a natural mantissa `m` and integer exponent `e`; rounding keeps 53
significant bits.  Exponent-range effects (subnormals below `2^-1022`,
overflow at `2^1024`) are not modelled: every value reachable under the
dimension bounds of the theorems below lies well inside the normal
range. -/

/-- Fuel-driven `⌊log₂⌋` (structural recursion, so concrete values
reduce in the kernel). -/
def log2Aux : ℕ → ℕ → ℕ
  | 0, _ => 0
  | fuel + 1, n => if n ≤ 1 then 0 else log2Aux fuel (n / 2) + 1

/-- `⌊log₂ n⌋` for `n ≥ 1` (and `0` for `n = 0`). -/
def natLog2 (n : ℕ) : ℕ := log2Aux n n

/-- A positive dyadic: the value `m * 2^e`. -/
abbrev Dy : Type := ℕ × ℤ

/-- The relative rounding error bound of binary64: one part in `2^53`
(half an ulp of a 53-bit significand). -/
def fpEps : ℚ := 1 / 2 ^ 53

/-- The rational value of a dyadic. -/
def dyVal (p : Dy) : ℚ := (p.1 : ℚ) * (2 : ℚ) ^ p.2

/-- Round `num / den` to the nearest integer, ties to even — the IEEE
rounding rule on an integer grid. -/
def roundHalfEven (num den : ℕ) : ℕ :=
  if 2 * (num % den) < den then num / den
  else if den < 2 * (num % den) then num / den + 1
  else if (num / den) % 2 = 0 then num / den else num / den + 1

/-- Does `2^c ≤ a / b` hold (for `b > 0`)?  Decided in ℕ by shifting. -/
def dyadicLe (c : ℤ) (a b : ℕ) : Bool :=
  if 0 ≤ c then b * 2 ^ c.toNat ≤ a else b ≤ a * 2 ^ (-c).toNat

/-- `⌊log₂ (a / b)⌋` for `a, b ≥ 1`. -/
def fpLog (a b : ℕ) : ℤ :=
  if dyadicLe ((natLog2 a : ℤ) - natLog2 b) a b then (natLog2 a : ℤ) - natLog2 b
  else (natLog2 a : ℤ) - natLog2 b - 1

/-- Binary64 `a / b` for natural `a, b ≥ 1` (CPython's correctly rounded
`int / int` true division): place the quotient on the 53-bit grid of its
binade and round to nearest, ties to even. -/
def fpDiv (a b : ℕ) : Dy :=
  if 0 ≤ fpLog a b - 52 then
    (roundHalfEven a (b * 2 ^ (fpLog a b - 52).toNat), fpLog a b - 52)
  else (roundHalfEven (a * 2 ^ (-(fpLog a b - 52)).toNat) b, fpLog a b - 52)

/-- Round a dyadic `m * 2^e` to 53 significant bits (the rounding step
of binary64 multiplication and of int→float conversion). -/
def fpRound53 (m : ℕ) (e : ℤ) : Dy :=
  if natLog2 m ≤ 52 then (m, e)
  else (roundHalfEven m (2 ^ (natLog2 m - 52)), e + (natLog2 m - 52))

/-- Binary64 multiplication of two dyadics: exact product, rounded. -/
def fpMul (p q : Dy) : Dy := fpRound53 (p.1 * q.1) (p.2 + q.2)

/-- Conversion of a Python `int` to binary64 (exact below `2^53`). -/
def int2fp (n : ℕ) : Dy := fpRound53 n 0

/-- Exact value comparison of two dyadics — floats compare by value. -/
def dyLt (p q : Dy) : Bool :=
  if p.2 ≤ q.2 then p.1 < q.1 * 2 ^ (q.2 - p.2).toNat
  else p.1 * 2 ^ (p.2 - q.2).toNat < q.1

/-- Python's `int(_)` on a nonnegative float: truncation toward zero. -/
def dyTrunc (p : Dy) : ℕ :=
  if 0 ≤ p.2 then p.1 * 2 ^ p.2.toNat else p.1 / 2 ^ (-p.2).toNat

/-! ## Geometry engine -/

/-- `resize_to_fit_bounding_box` from `cli.py` (lines 91-111), returning
the `(new_img_width, new_img_height)` pair: the two ratios are binary64
quotients compared by value; the scaled dimension is the truncated
binary64 product `quotient * box_dimension`.  The resampled image itself
is produced by the PIL collaborator `Image.resize`, modelled separately
as a parameter of the batch driver. -/
def resize_to_fit_bounding_box (img_width img_height bb_width bb_height : ℕ) :
    ℕ × ℕ :=
  if dyLt (fpDiv img_width img_height) (fpDiv bb_width bb_height) then
    (dyTrunc (fpMul (fpDiv img_width img_height) (int2fp bb_height)), bb_height)
  else
    (bb_width, dyTrunc (fpMul (fpDiv img_height img_width) (int2fp bb_width)))

/-- What the amended claim C1 asserts of the returned `(nw, nh)`: both
dimensions fit in the box, and the branch rule holds with the ratio
comparison performed in binary64, the fixed dimension exact, and the
scaled dimension within one unit of the truncated exact proportional
fit (`w * bh / h` and `h * bw / w` are exact natural truncations). -/
def FloatFitsSpec (w h bw bh nw nh : ℕ) : Prop :=
  nw ≤ bw ∧ nh ≤ bh ∧
    (if dyLt (fpDiv w h) (fpDiv bw bh) then
      nh = bh ∧ w * bh / h ≤ nw + 1 ∧ nw ≤ w * bh / h + 1
    else
      nw = bw ∧ h * bw / w ≤ nh + 1 ∧ nh ≤ h * bw / w + 1)

/-! ## Raster model (PIL collaborator) -/

/-- A pixel: RGBA channel values.  Decoded images hold channel values in
`0`-`255`; the model uses `ℕ`. -/
abbrev Pix : Type := ℕ × ℕ × ℕ × ℕ

/-- Modelled from the spec: an in-memory RGBA raster with a
pixel-addressable surface (spec section 3), stored as a list of rows.
`PIL.Image` itself is an external collaborator; its buffer is not in the
repository. -/
structure Img where
  width : ℕ
  height : ℕ
  rows : List (List Pix)
deriving DecidableEq

/-- Pixel access; out-of-range coordinates read as fully transparent
black.  (PIL raises on out-of-range `getpixel`; the batch driver models
that failure separately, before any out-of-range access happens.) -/
def Img.pixel (img : Img) (x y : ℕ) : Pix :=
  (img.rows.getD y []).getD x (0, 0, 0, 0)

/-- An image whose buffer has exactly `height` rows of `width` pixels. -/
def Img.WF (img : Img) : Prop :=
  img.rows.length = img.height ∧ ∀ row ∈ img.rows, row.length = img.width

/-- Build a raster of the given size from a coordinate function. -/
def mkImg (w h : ℕ) (f : ℕ → ℕ → Pix) : Img :=
  ⟨w, h, (List.range h).map (fun y => (List.range w).map (fun x => f x y))⟩

/-- Alpha channel of a pixel. -/
def alphaOf (p : Pix) : ℕ := p.2.2.2

/-- The columns that contain at least one content pixel. -/
def colHits (w h : ℕ) (p : ℕ → ℕ → Bool) : List ℕ :=
  (List.range w).filter (fun x => (List.range h).any (fun y => p x y))

/-- The rows that contain at least one content pixel. -/
def rowHits (w h : ℕ) (p : ℕ → ℕ → Bool) : List ℕ :=
  (List.range h).filter (fun y => (List.range w).any (fun x => p x y))

/-- Modelled from the spec: the `getbbox` collaborator computes "the
smallest box containing every pixel" satisfying a content predicate
(spec section 4.2); `none` when no pixel satisfies it.  The box is
`(left, upper, right, lower)` with exclusive right/lower edges, as PIL
returns it. -/
def bboxOf (w h : ℕ) (p : ℕ → ℕ → Bool) : Option (ℕ × ℕ × ℕ × ℕ) :=
  match (colHits w h p).argmin id, (colHits w h p).argmax id,
      (rowHits w h p).argmin id, (rowHits w h p).argmax id with
  | some l, some r, some t, some b => some (l, t, r + 1, b + 1)
  | _, _, _, _ => none

/-- Content predicate of `image.getbbox()` on an RGBA image: pixels with
non-zero alpha (spec section 4.2, branch A). -/
def alphaNZ (img : Img) (x y : ℕ) : Bool := alphaOf (img.pixel x y) != 0

/-- `ImageOps.posterize(_, 1)` on one channel: keep the top bit of the
8-bit value. -/
def posterize1 (v : ℕ) : ℕ := 128 * (v / 128)

/-- The posterized RGB value of a pixel, alpha dropped
(`ImageOps.posterize(image.convert("RGB"), 1)`). -/
def posterizePix (p : Pix) : ℕ × ℕ × ℕ :=
  (posterize1 p.1, posterize1 p.2.1, posterize1 p.2.2.1)

/-- The bounding-box branch of `main` (`cli.py` lines 142-151): if the
probe pixel `(3, 3)` is fully transparent, take `image.getbbox()`;
otherwise posterize to 1 bit per channel, build a flat background of the
posterized probe colour, and take the bounding box of the non-zero pixels
of the per-channel difference (a pixel differs from the flat background
iff its posterized value is not the posterized probe colour). -/
def detect_bbox (image : Img) : Option (ℕ × ℕ × ℕ × ℕ) :=
  if alphaOf (image.pixel 3 3) = 0 then
    bboxOf image.width image.height (alphaNZ image)
  else
    bboxOf image.width image.height
      (fun x y =>
        posterizePix (image.pixel x y) != posterizePix (image.pixel 3 3))

/-- `image.crop(bounding_box)`: `None` crops nothing (the whole image);
a box `(l, t, r, b)` yields an `(r - l) × (b - t)` image reading the
source at the translated coordinates. -/
def cropBox (img : Img) (bb : Option (ℕ × ℕ × ℕ × ℕ)) : Img :=
  match bb with
  | none => img
  | some (l, t, r, b) => mkImg (r - l) (b - t) (fun x y => img.pixel (l + x) (t + y))

/-- A box `(l, t, r, b)` (exclusive right/lower) contains a coordinate. -/
def InBox (bb : ℕ × ℕ × ℕ × ℕ) (x y : ℕ) : Prop :=
  bb.1 ≤ x ∧ x < bb.2.2.1 ∧ bb.2.1 ≤ y ∧ y < bb.2.2.2

/-- `bb` is the smallest axis-aligned box containing every in-range
coordinate satisfying `p`: it contains them all, and each of its four
edges touches one of them. -/
def IsTightBBox (w h : ℕ) (p : ℕ → ℕ → Bool) (bb : ℕ × ℕ × ℕ × ℕ) : Prop :=
  (∀ x, x < w → ∀ y, y < h → p x y = true → InBox bb x y) ∧
    (∃ y, y < h ∧ p bb.1 y = true) ∧
    (∃ y, y < h ∧ p (bb.2.2.1 - 1) y = true) ∧
    (∃ x, x < w ∧ p x bb.2.1 = true) ∧
    (∃ x, x < w ∧ p x (bb.2.2.2 - 1) = true)

/-- The C4 test image: 40 × 40, fully transparent except for an opaque
red square on pixel coordinates `10 ≤ x < 30`, `10 ≤ y < 30`. -/
def testSquareImg : Img :=
  mkImg 40 40 (fun x y =>
    if 10 ≤ x ∧ x < 30 ∧ 10 ≤ y ∧ y < 30 then (255, 0, 0, 255) else (0, 0, 0, 0))

/-! ## Compositor (cli.py lines 153-189) -/

/-- `Image.split()` restricted to one channel: the plane of one selected
channel value per pixel. -/
def splitChannel (img : Img) (sel : Pix → ℕ) : List (List ℕ) :=
  img.rows.map (fun row => row.map sel)

/-- `plane.point(lambda v: k)`: the constant lookup table replaces every
channel value by `k`. -/
def pointConst (plane : List (List ℕ)) (k : ℕ) : List (List ℕ) :=
  plane.map (fun row => row.map (fun _ => k))

/-- `Image.merge("RGBA", (r, g, b, a))` from four channel planes. -/
def mergeRGBA (w h : ℕ) (r g b a : List (List ℕ)) : Img :=
  mkImg w h (fun x y =>
    ((r.getD y []).getD x 0, (g.getD y []).getD x 0,
      (b.getD y []).getD x 0, (a.getD y []).getD x 0))

/-- The recolouring step of `main` (`cli.py` lines 166-173): split the
scaled foreground into channels, replace R, G and B by the flat override
colour via constant `point` maps, and merge back with the original alpha
plane. -/
def recolor (img : Img) (c : List ℕ) : Img :=
  mergeRGBA img.width img.height
    (pointConst (splitChannel img (fun p => p.1)) (c.getD 0 0))
    (pointConst (splitChannel img (fun p => p.2.1)) (c.getD 1 0))
    (pointConst (splitChannel img (fun p => p.2.2.1)) (c.getD 2 0))
    (splitChannel img (fun p => p.2.2.2))

/-- Modelled from the spec: one channel of the mask blend used by
`paste(…, mask)` ("where the mask is in between, the two images are
blended"); the imaging library's exact rounding is not normative for the
claims below. -/
def blendChannel (bgv fgv a : ℕ) : ℕ := (fgv * a + bgv * (255 - a) + 127) / 255

/-- Modelled from the spec: `canvas.paste(fg, (px, py), fg)` — copy the
foreground onto the canvas at an integer offset using the foreground's
own alpha channel as the paste mask (spec section 4.3 step 4). -/
def pasteWithMask (canvas fg : Img) (px py : ℤ) : Img :=
  mkImg canvas.width canvas.height (fun x y =>
    if px ≤ (x : ℤ) ∧ (x : ℤ) < px + fg.width ∧
        py ≤ (y : ℤ) ∧ (y : ℤ) < py + fg.height then
      let p := fg.pixel ((x : ℤ) - px).toNat ((y : ℤ) - py).toNat
      let a := alphaOf p
      if a = 255 then p
      else if a = 0 then canvas.pixel x y
      else
        let q := canvas.pixel x y
        (blendChannel q.1 p.1 a, blendChannel q.2.1 p.2.1 a,
          blendChannel q.2.2.1 p.2.2.1 a, blendChannel q.2.2.2 255 a)
    else canvas.pixel x y)

/-- Modelled from the spec: one pixel of
`Image.alpha_composite(background, logo_layer)` — standard "over" alpha
blending (spec section 4.3 step 6); exact library rounding is not
normative for the claims below. -/
def overPx (bgp fgp : Pix) : Pix :=
  let fa := alphaOf fgp
  if fa = 255 then fgp
  else if fa = 0 then bgp
  else
    (blendChannel bgp.1 fgp.1 fa, blendChannel bgp.2.1 fgp.2.1 fa,
      blendChannel bgp.2.2.1 fgp.2.2.1 fa,
      fa + alphaOf bgp * (255 - fa) / 255)

/-- `Image.alpha_composite` over the whole canvas. -/
def alphaComposite (bg fg : Img) : Img :=
  mkImg bg.width bg.height (fun x y => overPx (bg.pixel x y) (fg.pixel x y))

/-- Modelled from the spec: `final.convert("LA")` — luminance plus alpha
(ITU-R 601 weights), represented here as a grey RGBA raster. -/
def toLA (img : Img) : Img :=
  mkImg img.width img.height (fun x y =>
    let p := img.pixel x y
    let l := (299 * p.1 + 587 * p.2.1 + 114 * p.2.2.1) / 1000
    (l, l, l, alphaOf p))

/-! ## Configuration (cli.py lines 38-88) -/

/-- The four margins, in the order `top, right, bottom, left = args.margin`
(`cli.py` line 155). -/
structure Margin where
  top : ℕ
  right : ℕ
  bottom : ℕ
  left : ℕ
deriving DecidableEq

/-- The validated configuration produced by `parse_args`: width and
height already sign-normalized, margins parsed, colour overrides parsed
to channel lists. -/
structure Config where
  width : ℕ
  height : ℕ
  margin : Margin
  background : Option (List ℕ)
  color : Option (List ℕ)
  greyscale : Bool
  output : String
deriving DecidableEq

/-- The raw process arguments as argparse delivers them, before the
validation code at `cli.py` lines 59-88 runs.  `verbose`/`debug` control
logging volume only and are omitted. -/
structure RawArgs where
  images : List String
  height : ℤ
  width : ℤ
  margin : String := "0"
  background : Option String := none
  output : String := "cropped"
  greyscale : Bool := false
  color : Option String := none

/-- The validation of one colour option (`cli.py` lines 59-73): Python's
`if args.color:` skips validation when the option is absent or the empty
string (both falsy); otherwise a non-matching string raises
`ArgumentTypeError`, and a string that matches `is_hex` but has length 7
(trailing newline) fails `hex2rgb`'s length assertion. -/
def parseColorField (s? : Option String) (flag : String) :
    Except String (Option (List ℕ)) :=
  match s? with
  | none => .ok none
  | some s =>
    if s = "" then .ok none
    else if is_hex s then
      match hex2rgb s with
      | some c => .ok (some c)
      | none => .error ("AssertionError in hex2rgb for option " ++ flag)
    else
      .error ("ArgumentTypeError: Please specify " ++ flag ++
        " as 6-symbol HEX value")

/-- `parse_args` (`cli.py` lines 59-88), after argparse: validate the
colour overrides, sign-normalize width and height, parse the margin
string, and assert the margin-vs-dimension invariants.  Every raised
exception is a fatal configuration error, modelled as `.error`. -/
def parse_args (raw : RawArgs) : Except String Config :=
  match parseColorField raw.color "--color" with
  | .error e => .error e
  | .ok color? =>
    match parseColorField raw.background "--background" with
    | .error e => .error e
    | .ok background? =>
      match parse_margin raw.margin with
      | none => .error "ValueError: invalid literal for int()"
      | some m =>
        if m.getD 1 0 + m.getD 3 0 < raw.width.natAbs then
          if m.getD 0 0 + m.getD 2 0 < raw.height.natAbs then
            .ok ⟨raw.width.natAbs, raw.height.natAbs,
              ⟨m.getD 0 0, m.getD 1 0, m.getD 2 0, m.getD 3 0⟩,
              background?, color?, raw.greyscale, raw.output⟩
          else .error "AssertionError: Height should be greater than sum of margins"
        else .error "AssertionError: Width should be greater than sum of margins"

/-! ## Batch driver (cli.py lines 114-191) -/

/-- The paste offset used by `main` (`cli.py` lines 176-183), one axis
per component, Python `//` being `Int.fdiv`. -/
def pastePos (cfg : Config) (rw rh : ℕ) : ℤ × ℤ :=
  ((cfg.margin.left : ℤ) +
      ((cfg.width : ℤ) - (cfg.margin.left : ℤ) - (cfg.margin.right : ℤ) -
        (rw : ℤ)).fdiv 2,
    (cfg.margin.top : ℤ) +
      ((cfg.height : ℤ) - (cfg.margin.top : ℤ) - (cfg.margin.bottom : ℤ) -
        (rh : ℤ)).fdiv 2)

/-- Modelled from the spec: `center_offset(canvas_dim, content_dim,
margin_near, margin_far) = margin_near + (canvas_dim − margin_near −
margin_far − content_dim) // 2` with integer floor division (spec
section 4.1). -/
def center_offset (canvas_dim content_dim margin_near margin_far : ℤ) : ℤ :=
  margin_near + (canvas_dim - margin_near - margin_far - content_dim).fdiv 2

/-- The `if args.color:` step of `main` (`cli.py` lines 166-173). -/
def applyColor (cfg : Config) (img : Img) : Img :=
  match cfg.color with
  | some c => recolor img c
  | none => img

/-- One image through the per-file pipeline of `main` (`cli.py` lines
142-189): detect the bounding box, crop, resize to the margin-reduced
box (the resampled pixels come from the `lanczos` collaborator), pick
the background colour, optionally recolour, paste centred, composite,
optionally convert to luminance+alpha. -/
def process (lanczos : Img → ℕ → ℕ → Img) (cfg : Config) (image : Img) : Img :=
  let cropped := cropBox image (detect_bbox image)
  let dims := resize_to_fit_bounding_box cropped.width cropped.height
    (cfg.width - cfg.margin.left - cfg.margin.right)
    (cfg.height - cfg.margin.top - cfg.margin.bottom)
  let resized := lanczos cropped dims.1 dims.2
  let background_color : Pix :=
    match cfg.background with
    | some c => (c.getD 0 0, c.getD 1 0, c.getD 2 0, 255)
    | none => image.pixel 3 3
  let fg := applyColor cfg resized
  let pos := pastePos cfg dims.1 dims.2
  let logo_layer :=
    pasteWithMask (mkImg cfg.width cfg.height (fun _ _ => (128, 128, 128, 0)))
      fg pos.1 pos.2
  let bgImg := mkImg cfg.width cfg.height (fun _ _ => background_color)
  let final := alphaComposite bgImg logo_layer
  if cfg.greyscale then toLA final else final

/-- `Path(path).stem`: the final path component with its last suffix
removed (leading-dot edge cases of `pathlib` are immaterial here). -/
def stem (p : String) : String :=
  let base := (splitOnChar '/' p.data).getLastD []
  match splitOnChar '.' base with
  | [] => String.mk []
  | [single] => String.mk single
  | parts => String.mk (List.intercalate ['.'] parts.dropLast)

/-- The observable events of one run: creating the output directory,
logging a decode warning, and writing one output PNG (identified by its
filename stem and its pixel content; the PNG encoder is deterministic,
so equal rasters give byte-identical files). -/
inductive Event where
  | mkdir (dir : String)
  | warn (path : String)
  | write (name : String) (img : Img)
deriving DecidableEq

/-- The events one input path contributes when the loop body completes:
a decode failure logs exactly one warning and writes nothing; a decoded
image is processed and written under its stem. -/
def stepEvents (lanczos : Img → ℕ → ℕ → Img) (cfg : Config)
    (decode : String → Option Img) (p : String) : List Event :=
  match decode p with
  | none => [Event.warn p]
  | some image => [Event.write (stem p) (process lanczos cfg image)]

/-- The `for path in args.images:` loop (`cli.py` lines 125-191).
Decode failures (`FileNotFoundError`, `UnidentifiedImageError`) are
caught and logged; but an image smaller than the probe coordinates makes
`getpixel((3, 3))` raise an uncaught `IndexError`, and a margin-consumed
target box makes the resize arithmetic raise uncaught — both abort the
whole run (`.error`). -/
def runLoop (lanczos : Img → ℕ → ℕ → Img) (cfg : Config)
    (decode : String → Option Img) : List String → Except String (List Event)
  | [] => .ok []
  | p :: ps =>
    match decode p with
    | none =>
      (runLoop lanczos cfg decode ps).map (fun evs => Event.warn p :: evs)
    | some image =>
      if 4 ≤ image.width ∧ 4 ≤ image.height then
        if 0 < cfg.width - cfg.margin.left - cfg.margin.right ∧
            0 < cfg.height - cfg.margin.top - cfg.margin.bottom then
          (runLoop lanczos cfg decode ps).map
            (fun evs => Event.write (stem p) (process lanczos cfg image) :: evs)
        else .error "degenerate margin-reduced box"
      else .error "IndexError: image smaller than probe coordinates"

/-- `main` after successful validation (`cli.py` lines 123-191): create
the output directory, then run the loop.  The `decode` collaborator maps
a path to its decoded RGBA raster, or `none` when `Image.open` raises;
`lanczos` is the `Image.resize(_, LANCZOS)` collaborator. -/
def run (lanczos : Img → ℕ → ℕ → Img) (cfg : Config)
    (decode : String → Option Img) (paths : List String) :
    Except String (List Event) :=
  (runLoop lanczos cfg decode paths).map
    (fun evs => Event.mkdir cfg.output :: evs)

/-- `main` from the raw arguments (`cli.py` lines 114-191): `parse_args`
runs first; any configuration error aborts before the output directory
is created and before any input file is opened, so the `.error` outcome
carries no events. -/
def run_raw (lanczos : Img → ℕ → ℕ → Img) (decode : String → Option Img)
    (raw : RawArgs) : Except String (List Event) :=
  match parse_args raw with
  | .error e => .error e
  | .ok cfg => run lanczos cfg decode raw.images

/-- What it means for a color-override string to consist of exactly six
hexadecimal digits (claim C5's acceptance condition). -/
def SixHex (s : String) : Prop :=
  s.data.length = 6 ∧ ∀ c ∈ s.data, isHexDig c = true

instance (s : String) : Decidable (SixHex s) := by
  unfold SixHex
  infer_instance

/-! ## Concrete demonstration inputs for the witnesses -/

/-- A 6 × 6 image, transparent except for an opaque square at
`4 ≤ x`, `4 ≤ y`; its probe pixel `(3, 3)` is fully transparent. -/
def demoImg : Img :=
  mkImg 6 6 (fun x y =>
    if 4 ≤ x ∧ 4 ≤ y then (200, 10, 10, 255) else (0, 0, 0, 0))

/-- A small valid configuration. -/
def demoCfg : Config := ⟨8, 8, ⟨1, 1, 1, 1⟩, none, some [9, 9, 9], false, "out"⟩

/-- A decode collaborator with exactly one decodable path. -/
def demoDecode : String → Option Img :=
  fun p => if p = "a.png" then some demoImg else none

/-- A trivial stand-in for the resampling collaborator. -/
def demoLanczos : Img → ℕ → ℕ → Img :=
  fun img w h => mkImg w h (fun x y => img.pixel x y)

/-- Raw arguments passing `--color ""`. -/
def rawEmptyColor : RawArgs :=
  { images := ["logo.png"], height := 100, width := 100, color := some "" }

/-- Raw arguments violating the margin-vs-width invariant
(`--width -10 --margin 20`). -/
def rawBadMargin : RawArgs :=
  { images := ["logo.png"], height := 100, width := -10, margin := "20" }

example : parse_margin "5" = some [5, 5, 5, 5] := by decide
example : parse_margin "1,2" = some [1, 2, 1, 2] := by decide
example : parse_margin "1,2,3" = some [1, 2, 3, 2] := by decide
example : parse_margin "1,2,3,4" = some [1, 2, 3, 4] := by decide
example : parse_margin "-5" = some [5, 5, 5, 5] := by decide
example : parse_margin "0" = some [0, 0, 0, 0] := by decide
example : parse_margin "" = none := by decide
example : parse_margin "1,2,3,0" = some [1, 2, 3, 2] := by decide
example : parse_margin "1,0" = some [1, 1, 1, 1] := by decide
example : parse_margin "1,2,3,4,5" = some [1, 2, 3, 4] := by decide
example : hex2rgb "ffab03" = some [255, 171, 3] := by decide
example : is_hex "FFAB03" = true := by decide
example : is_hex "zz0000" = false := by decide

example : resize_to_fit_bounding_box 49 1 49 1 = (49, 0) := by decide
example : resize_to_fit_bounding_box 20 10 8 9 = (8, 4) := by decide
example : resize_to_fit_bounding_box 10 10 50 40 = (40, 40) := by decide

example : detect_bbox testSquareImg = some (10, 10, 30, 30) := by decide

/-! ## Binary64 correctness: claim C1

The rounding steps of `fpDiv`, `fpMul` and `int2fp` each move a value by
at most one part in `2^53`; chaining those bounds shows the program's
scaled dimension lies within one pixel of the exact proportional fit for
all dimensions up to `2^20`, while `(49, 1, 49, 1)` shows the
exact-arithmetic reading of the claim is false of the program. -/

lemma log2Aux_correct :
    ∀ fuel n : ℕ, 1 ≤ n → n ≤ fuel →
      2 ^ log2Aux fuel n ≤ n ∧ n < 2 ^ (log2Aux fuel n + 1) := by
  intro fuel
  induction fuel with
  | zero => intro n h1 h2; omega
  | succ fuel ih =>
    intro n h1 h2
    by_cases hn : n ≤ 1
    · have : n = 1 := by omega
      subst this
      simp [log2Aux]
    · have h1' : 1 ≤ n / 2 := by omega
      have h2' : n / 2 ≤ fuel := by omega
      obtain ⟨lo, hi⟩ := ih (n / 2) h1' h2'
      have hstep : log2Aux (fuel + 1) n = log2Aux fuel (n / 2) + 1 := by
        simp [log2Aux, hn]
      rw [hstep]
      set L := log2Aux fuel (n / 2) with hL
      have hp1 : (2 : ℕ) ^ (L + 1) = 2 * 2 ^ L := by ring
      have hp2 : (2 : ℕ) ^ (L + 1 + 1) = 2 * 2 ^ (L + 1) := by ring
      omega

lemma natLog2_spec (n : ℕ) (hn : 1 ≤ n) :
    2 ^ natLog2 n ≤ n ∧ n < 2 ^ (natLog2 n + 1) :=
  log2Aux_correct n n hn le_rfl

lemma natLog2_le {n k : ℕ} (h : n < 2 ^ (k + 1)) : natLog2 n ≤ k := by
  rcases Nat.eq_zero_or_pos n with rfl | hn
  · simp [natLog2, log2Aux]
  · obtain ⟨lo, -⟩ := natLog2_spec n hn
    have : 2 ^ natLog2 n < 2 ^ (k + 1) := lt_of_le_of_lt lo h
    have := (Nat.pow_lt_pow_iff_right (by norm_num : 1 < 2)).1 this
    omega

lemma roundHalfEven_bounds (num den : ℕ) (hden : 0 < den) :
    (num : ℚ) / den - 1 / 2 ≤ (roundHalfEven num den : ℚ) ∧
      (roundHalfEven num den : ℚ) ≤ (num : ℚ) / den + 1 / 2 := by
  have hdq : (0 : ℚ) < (den : ℚ) := by exact_mod_cast hden
  have h0 : (den : ℚ) * ((num / den : ℕ) : ℚ) + ((num % den : ℕ) : ℚ) = num := by
    exact_mod_cast Nat.div_add_mod num den
  have hsplit : (num : ℚ) / den =
      ((num / den : ℕ) : ℚ) + ((num % den : ℕ) : ℚ) / den := by
    field_simp
    linarith
  have hremlt : ((num % den : ℕ) : ℚ) < den := by
    exact_mod_cast Nat.mod_lt num hden
  have hrem0 : (0 : ℚ) ≤ ((num % den : ℕ) : ℚ) := by positivity
  have hfrac0 : (0 : ℚ) ≤ ((num % den : ℕ) : ℚ) / den := by positivity
  have hfrac1 : ((num % den : ℕ) : ℚ) / den < 1 := by
    rw [div_lt_one hdq]
    exact hremlt
  unfold roundHalfEven
  split_ifs with h1 h2 h3
  · have hql : 2 * ((num % den : ℕ) : ℚ) < den := by exact_mod_cast h1
    have hub : ((num % den : ℕ) : ℚ) / den < 1 / 2 := by
      rw [div_lt_div_iff₀ hdq (by norm_num)]
      linarith
    constructor
    · rw [hsplit]
      linarith
    · rw [hsplit]
      linarith
  · have hql : (den : ℚ) < 2 * ((num % den : ℕ) : ℚ) := by exact_mod_cast h2
    have hlb : (1 : ℚ) / 2 < ((num % den : ℕ) : ℚ) / den := by
      rw [div_lt_div_iff₀ (by norm_num) hdq]
      linarith
    push_cast
    constructor
    · rw [hsplit]
      linarith
    · rw [hsplit]
      linarith
  · have htie : 2 * (num % den) = den := by omega
    have heq : ((num % den : ℕ) : ℚ) / den = 1 / 2 := by
      rw [div_eq_div_iff (ne_of_gt hdq) (by norm_num)]
      have h2' : 2 * ((num % den : ℕ) : ℚ) = den := by exact_mod_cast htie
      linarith
    constructor
    · rw [hsplit, heq]
      linarith
    · rw [hsplit, heq]
      linarith
  · have htie : 2 * (num % den) = den := by omega
    have heq : ((num % den : ℕ) : ℚ) / den = 1 / 2 := by
      rw [div_eq_div_iff (ne_of_gt hdq) (by norm_num)]
      have h2' : 2 * ((num % den : ℕ) : ℚ) = den := by exact_mod_cast htie
      linarith
    push_cast
    constructor
    · rw [hsplit, heq]
      linarith
    · rw [hsplit, heq]
      linarith

lemma fpEps_pos : (0 : ℚ) < fpEps := by
  unfold fpEps
  norm_num

lemma zpow_toNat_eq {c : ℤ} (hc : 0 ≤ c) : ((2 : ℚ) ^ c.toNat) = (2 : ℚ) ^ c := by
  rw [← zpow_natCast]
  congr 1
  exact Int.toNat_of_nonneg hc

lemma dyadicLe_iff (c : ℤ) (a b : ℕ) (hb : 0 < b) :
    dyadicLe c a b = true ↔ (2 : ℚ) ^ c ≤ (a : ℚ) / b := by
  have hbq : (0 : ℚ) < (b : ℚ) := by exact_mod_cast hb
  unfold dyadicLe
  split_ifs with hc
  · rw [decide_eq_true_eq]
    rw [le_div_iff₀ hbq]
    constructor
    · intro h
      have hq : ((b * 2 ^ c.toNat : ℕ) : ℚ) ≤ a := by exact_mod_cast h
      push_cast at hq
      rw [zpow_toNat_eq hc] at hq
      linarith
    · intro h
      have hq : ((b * 2 ^ c.toNat : ℕ) : ℚ) ≤ a := by
        push_cast
        rw [zpow_toNat_eq hc]
        linarith
      exact_mod_cast hq
  · push_neg at hc
    have hcn : 0 ≤ -c := by omega
    rw [decide_eq_true_eq]
    rw [le_div_iff₀ hbq]
    have hkey : ∀ x y : ℚ, x ≤ y * (2 : ℚ) ^ (-c) ↔ x * (2 : ℚ) ^ c ≤ y := by
      intro x y
      rw [zpow_neg, ← div_eq_mul_inv]
      rw [le_div_iff₀ (by positivity : (0:ℚ) < (2:ℚ) ^ c)]
    constructor
    · intro h
      have hq : (b : ℚ) ≤ a * (2 : ℚ) ^ (-c) := by
        have : ((b : ℕ) : ℚ) ≤ ((a * 2 ^ (-c).toNat : ℕ) : ℚ) := by exact_mod_cast h
        push_cast at this
        rw [zpow_toNat_eq hcn] at this
        linarith
      have := (hkey (b : ℚ) (a : ℚ)).1 hq
      linarith
    · intro h
      have hq : (b : ℚ) ≤ a * (2 : ℚ) ^ (-c) := (hkey (b : ℚ) (a : ℚ)).2 (by linarith)
      have : ((b : ℕ) : ℚ) ≤ ((a * 2 ^ (-c).toNat : ℕ) : ℚ) := by
        push_cast
        rw [zpow_toNat_eq hcn]
        linarith
      exact_mod_cast this

lemma fpLog_bounds (a b : ℕ) (ha : 1 ≤ a) (hb : 1 ≤ b) :
    (2 : ℚ) ^ fpLog a b ≤ (a : ℚ) / b ∧ (a : ℚ) / b < (2 : ℚ) ^ (fpLog a b + 1) := by
  have haq : (0 : ℚ) < (a : ℚ) := by exact_mod_cast ha
  have hbq : (0 : ℚ) < (b : ℚ) := by exact_mod_cast hb
  obtain ⟨la1, la2⟩ := natLog2_spec a ha
  obtain ⟨lb1, lb2⟩ := natLog2_spec b hb
  set la := natLog2 a
  set lb := natLog2 b
  have la1q : (2 : ℚ) ^ (la : ℤ) ≤ a := by
    rw [← zpow_toNat_eq (by positivity : (0:ℤ) ≤ (la : ℤ))]
    simp only [Int.toNat_natCast]
    exact_mod_cast la1
  have la2q : (a : ℚ) < (2 : ℚ) ^ ((la : ℤ) + 1) := by
    have : ((la : ℤ) + 1) = ((la + 1 : ℕ) : ℤ) := by push_cast; ring
    rw [this, ← zpow_toNat_eq (by positivity), Int.toNat_natCast]
    exact_mod_cast la2
  have lb1q : (2 : ℚ) ^ (lb : ℤ) ≤ b := by
    rw [← zpow_toNat_eq (by positivity : (0:ℤ) ≤ (lb : ℤ))]
    simp only [Int.toNat_natCast]
    exact_mod_cast lb1
  have lb2q : (b : ℚ) < (2 : ℚ) ^ ((lb : ℤ) + 1) := by
    have : ((lb : ℤ) + 1) = ((lb + 1 : ℕ) : ℤ) := by push_cast; ring
    rw [this, ← zpow_toNat_eq (by positivity), Int.toNat_natCast]
    exact_mod_cast lb2
  set c : ℤ := (la : ℤ) - lb with hc
  have hq_hi : (a : ℚ) / b < (2 : ℚ) ^ (c + 1) := by
    rw [div_lt_iff₀ hbq]
    calc (a : ℚ) < (2 : ℚ) ^ ((la : ℤ) + 1) := la2q
    _ = (2 : ℚ) ^ (c + 1) * (2 : ℚ) ^ (lb : ℤ) := by
        rw [← zpow_add₀ (by norm_num : (2:ℚ) ≠ 0)]
        congr 1
        omega
    _ ≤ (2 : ℚ) ^ (c + 1) * b := by gcongr
  have hq_lo : (2 : ℚ) ^ (c - 1) < (a : ℚ) / b := by
    rw [lt_div_iff₀ hbq]
    calc (2 : ℚ) ^ (c - 1) * (b : ℚ)
        < (2 : ℚ) ^ (c - 1) * (2 : ℚ) ^ ((lb : ℤ) + 1) := by gcongr
    _ = (2 : ℚ) ^ (la : ℤ) := by
        rw [← zpow_add₀ (by norm_num : (2:ℚ) ≠ 0)]
        congr 1
        omega
    _ ≤ a := la1q
  unfold fpLog
  rw [← hc]
  by_cases hd : dyadicLe c a b = true
  · rw [if_pos hd]
    exact ⟨(dyadicLe_iff c a b hb).1 hd, hq_hi⟩
  · rw [if_neg hd]
    have hnot : ¬ ((2 : ℚ) ^ c ≤ (a : ℚ) / b) := fun hcon =>
      hd ((dyadicLe_iff c a b hb).2 hcon)
    push_neg at hnot
    constructor
    · exact le_of_lt hq_lo
    · have : c - 1 + 1 = c := by omega
      rw [this]
      exact hnot

/-- Correct rounding on the grid `2^e` moves a value by at most half a
grid step, which is at most `fpEps` relative once the value reaches the
top binade of the grid. -/
lemma round_scaled_bounds (q : ℚ) (N D : ℕ) (e : ℤ) ( _hq : 0 < q) (hD : 0 < D)
    (hND : (N : ℚ) / D = q * (2 : ℚ) ^ (-e))
    (hlow : (2 : ℚ) ^ (e + 52) ≤ q) :
    q * (1 - fpEps) ≤ (roundHalfEven N D : ℚ) * (2 : ℚ) ^ e ∧
      (roundHalfEven N D : ℚ) * (2 : ℚ) ^ e ≤ q * (1 + fpEps) := by
  obtain ⟨hlo, hhi⟩ := roundHalfEven_bounds N D hD
  have h2e : (0 : ℚ) < (2 : ℚ) ^ e := by positivity
  have hNDe : ((N : ℚ) / D) * (2 : ℚ) ^ e = q := by
    rw [hND, mul_assoc, ← zpow_add₀ (by norm_num : (2:ℚ) ≠ 0)]
    simp
  have hhalf : (1 / 2 : ℚ) * (2 : ℚ) ^ e ≤ q * fpEps := by
    have heq : (1 / 2 : ℚ) * (2 : ℚ) ^ e = (2 : ℚ) ^ (e + 52) * fpEps := by
      unfold fpEps
      have h1 : (1 / 2 : ℚ) = (2 : ℚ) ^ (-1 : ℤ) := by norm_num
      have h2 : (1 / 2 ^ 53 : ℚ) = (2 : ℚ) ^ (-53 : ℤ) := by
        rw [zpow_neg]
        norm_num
      rw [h1, h2, ← zpow_add₀ (by norm_num : (2:ℚ) ≠ 0),
        ← zpow_add₀ (by norm_num : (2:ℚ) ≠ 0)]
      congr 1
      omega
    rw [heq]
    have : (0 : ℚ) < fpEps := fpEps_pos
    gcongr
  constructor
  · have hstep := mul_le_mul_of_nonneg_right hlo (le_of_lt h2e)
    have hexp : ((N : ℚ) / D - 1 / 2) * (2 : ℚ) ^ e =
        ((N : ℚ) / D) * (2 : ℚ) ^ e - (1 / 2 : ℚ) * (2 : ℚ) ^ e := by ring
    rw [hexp, hNDe] at hstep
    nlinarith [hstep, hhalf]
  · have hstep := mul_le_mul_of_nonneg_right hhi (le_of_lt h2e)
    have hexp : ((N : ℚ) / D + 1 / 2) * (2 : ℚ) ^ e =
        ((N : ℚ) / D) * (2 : ℚ) ^ e + (1 / 2 : ℚ) * (2 : ℚ) ^ e := by ring
    rw [hexp, hNDe] at hstep
    nlinarith [hstep, hhalf]

lemma fpDiv_bounds (a b : ℕ) (ha : 1 ≤ a) (hb : 1 ≤ b) :
    ((a : ℚ) / b) * (1 - fpEps) ≤ dyVal (fpDiv a b) ∧
      dyVal (fpDiv a b) ≤ ((a : ℚ) / b) * (1 + fpEps) := by
  have haq : (0 : ℚ) < (a : ℚ) := by exact_mod_cast ha
  have hbq : (0 : ℚ) < (b : ℚ) := by exact_mod_cast hb
  have hq : (0 : ℚ) < (a : ℚ) / b := by positivity
  obtain ⟨hlg, -⟩ := fpLog_bounds a b ha hb
  have hlow : (2 : ℚ) ^ (fpLog a b - 52 + 52) ≤ (a : ℚ) / b := by
    have : fpLog a b - 52 + 52 = fpLog a b := by omega
    rw [this]
    exact hlg
  unfold fpDiv
  split_ifs with he
  · have hND : ((a : ℕ) : ℚ) / ((b * 2 ^ (fpLog a b - 52).toNat : ℕ) : ℚ) =
        ((a : ℚ) / b) * (2 : ℚ) ^ (-(fpLog a b - 52)) := by
      push_cast
      rw [zpow_toNat_eq he, zpow_neg]
      field_simp
    have hD : 0 < b * 2 ^ (fpLog a b - 52).toNat := by positivity
    have := round_scaled_bounds ((a : ℚ) / b) a (b * 2 ^ (fpLog a b - 52).toNat)
      (fpLog a b - 52) hq hD hND hlow
    exact ⟨this.1, this.2⟩
  · push_neg at he
    have hen : 0 ≤ -(fpLog a b - 52) := by omega
    have hND : ((a * 2 ^ (-(fpLog a b - 52)).toNat : ℕ) : ℚ) / ((b : ℕ) : ℚ) =
        ((a : ℚ) / b) * (2 : ℚ) ^ (-(fpLog a b - 52)) := by
      push_cast
      rw [zpow_toNat_eq hen]
      field_simp
    have := round_scaled_bounds ((a : ℚ) / b) (a * 2 ^ (-(fpLog a b - 52)).toNat) b
      (fpLog a b - 52) hq (by omega) hND hlow
    exact ⟨this.1, this.2⟩

lemma div_pow_eq (x : ℚ) (k : ℕ) (e : ℤ) :
    x / ((2 ^ k : ℕ) : ℚ) = (x * (2 : ℚ) ^ e) * (2 : ℚ) ^ (-(e + (k : ℤ))) := by
  have h2 : (2 : ℚ) ≠ 0 := by norm_num
  have he : e + -(e + (k : ℤ)) = -(k : ℤ) := by ring
  rw [mul_assoc, ← zpow_add₀ h2, he, zpow_neg, zpow_natCast]
  push_cast
  rw [div_eq_mul_inv]

lemma fpRound53_bounds (m : ℕ) (e : ℤ) (hm : 1 ≤ m) :
    ((m : ℚ) * (2 : ℚ) ^ e) * (1 - fpEps) ≤ dyVal (fpRound53 m e) ∧
      dyVal (fpRound53 m e) ≤ ((m : ℚ) * (2 : ℚ) ^ e) * (1 + fpEps) := by
  have hmq : (0 : ℚ) < (m : ℚ) := by exact_mod_cast hm
  have h2e : (0 : ℚ) < (2 : ℚ) ^ e := by positivity
  have hq : (0 : ℚ) < (m : ℚ) * (2 : ℚ) ^ e := by positivity
  have heps : (0 : ℚ) < fpEps := fpEps_pos
  unfold fpRound53
  split_ifs with hl
  · constructor
    · show ((m : ℚ) * (2 : ℚ) ^ e) * (1 - fpEps) ≤ (m : ℚ) * (2 : ℚ) ^ e
      nlinarith
    · show (m : ℚ) * (2 : ℚ) ^ e ≤ ((m : ℚ) * (2 : ℚ) ^ e) * (1 + fpEps)
      nlinarith
  · push_neg at hl
    obtain ⟨hm1, -⟩ := natLog2_spec m hm
    have hk : (natLog2 m : ℤ) - 52 = ((natLog2 m - 52 : ℕ) : ℤ) := by
      omega
    have hND : ((m : ℕ) : ℚ) / ((2 ^ (natLog2 m - 52) : ℕ) : ℚ) =
        ((m : ℚ) * (2 : ℚ) ^ e) * (2 : ℚ) ^ (-(e + (natLog2 m - 52 : ℕ))) :=
      div_pow_eq (m : ℚ) (natLog2 m - 52) e
    have hlow : (2 : ℚ) ^ (e + (natLog2 m - 52 : ℕ) + 52) ≤ (m : ℚ) * (2 : ℚ) ^ e := by
      have hcast : (2 : ℚ) ^ (e + (natLog2 m - 52 : ℕ) + 52) =
          (2 : ℚ) ^ ((natLog2 m : ℕ) : ℤ) * (2 : ℚ) ^ e := by
        rw [← zpow_add₀ (by norm_num : (2:ℚ) ≠ 0)]
        congr 1
        omega
      rw [hcast]
      have hmlow : (2 : ℚ) ^ ((natLog2 m : ℕ) : ℤ) ≤ (m : ℚ) := by
        rw [← zpow_toNat_eq (by positivity), Int.toNat_natCast]
        exact_mod_cast hm1
      gcongr
    have := round_scaled_bounds ((m : ℚ) * (2 : ℚ) ^ e) m (2 ^ (natLog2 m - 52))
      (e + (natLog2 m - 52 : ℕ)) hq (by positivity) hND hlow
    rw [hk]
    exact ⟨this.1, this.2⟩

lemma fpRound53_exact (m : ℕ) (e : ℤ) (hm : natLog2 m ≤ 52) :
    fpRound53 m e = (m, e) := by
  unfold fpRound53
  rw [if_pos hm]

lemma int2fp_exact (n : ℕ) (hn : n < 2 ^ 53) : int2fp n = (n, 0) := by
  unfold int2fp
  exact fpRound53_exact n 0 (natLog2_le hn)

lemma dyLt_iff (p q : Dy) : dyLt p q = true ↔ dyVal p < dyVal q := by
  unfold dyLt dyVal
  split_ifs with hle
  · rw [decide_eq_true_eq]
    have h2 : ((2 : ℚ) ^ (q.2 - p.2).toNat) = (2 : ℚ) ^ (q.2 - p.2) :=
      zpow_toNat_eq (by omega)
    have h2p : (0 : ℚ) < (2 : ℚ) ^ p.2 := by positivity
    constructor
    · intro h
      have hq' : (p.1 : ℚ) < (q.1 : ℚ) * (2 : ℚ) ^ (q.2 - p.2) := by
        have : ((p.1 : ℕ) : ℚ) < ((q.1 * 2 ^ (q.2 - p.2).toNat : ℕ) : ℚ) := by
          exact_mod_cast h
        push_cast at this
        rw [h2] at this
        linarith
      calc (p.1 : ℚ) * (2 : ℚ) ^ p.2
          < ((q.1 : ℚ) * (2 : ℚ) ^ (q.2 - p.2)) * (2 : ℚ) ^ p.2 := by gcongr
        _ = (q.1 : ℚ) * (2 : ℚ) ^ q.2 := by
            rw [mul_assoc, ← zpow_add₀ (by norm_num : (2:ℚ) ≠ 0)]
            congr 2
            omega
    · intro h
      have hq' : (p.1 : ℚ) < (q.1 : ℚ) * (2 : ℚ) ^ (q.2 - p.2) := by
        have hrw : (q.1 : ℚ) * (2 : ℚ) ^ (q.2 - p.2) =
            ((q.1 : ℚ) * (2 : ℚ) ^ q.2) * (2 : ℚ) ^ (-p.2) := by
          rw [mul_assoc, ← zpow_add₀ (by norm_num : (2:ℚ) ≠ 0)]
          congr 2
        have hp1 : (p.1 : ℚ) = ((p.1 : ℚ) * (2 : ℚ) ^ p.2) * (2 : ℚ) ^ (-p.2) := by
          rw [mul_assoc, ← zpow_add₀ (by norm_num : (2:ℚ) ≠ 0)]
          simp
        rw [hrw, hp1]
        gcongr
      have : ((p.1 : ℕ) : ℚ) < ((q.1 * 2 ^ (q.2 - p.2).toNat : ℕ) : ℚ) := by
        push_cast
        rw [h2]
        linarith
      exact_mod_cast this
  · push_neg at hle
    rw [decide_eq_true_eq]
    have h2 : ((2 : ℚ) ^ (p.2 - q.2).toNat) = (2 : ℚ) ^ (p.2 - q.2) :=
      zpow_toNat_eq (by omega)
    have h2q : (0 : ℚ) < (2 : ℚ) ^ q.2 := by positivity
    constructor
    · intro h
      have hq' : (p.1 : ℚ) * (2 : ℚ) ^ (p.2 - q.2) < (q.1 : ℚ) := by
        have : ((p.1 * 2 ^ (p.2 - q.2).toNat : ℕ) : ℚ) < ((q.1 : ℕ) : ℚ) := by
          exact_mod_cast h
        push_cast at this
        rw [h2] at this
        linarith
      calc (p.1 : ℚ) * (2 : ℚ) ^ p.2
          = ((p.1 : ℚ) * (2 : ℚ) ^ (p.2 - q.2)) * (2 : ℚ) ^ q.2 := by
            rw [mul_assoc, ← zpow_add₀ (by norm_num : (2:ℚ) ≠ 0)]
            congr 2
            omega
        _ < (q.1 : ℚ) * (2 : ℚ) ^ q.2 := by gcongr
    · intro h
      have hq' : (p.1 : ℚ) * (2 : ℚ) ^ (p.2 - q.2) < (q.1 : ℚ) := by
        have hrw : (p.1 : ℚ) * (2 : ℚ) ^ (p.2 - q.2) =
            ((p.1 : ℚ) * (2 : ℚ) ^ p.2) * (2 : ℚ) ^ (-q.2) := by
          rw [mul_assoc, ← zpow_add₀ (by norm_num : (2:ℚ) ≠ 0)]
          congr 2
        have hq1 : (q.1 : ℚ) = ((q.1 : ℚ) * (2 : ℚ) ^ q.2) * (2 : ℚ) ^ (-q.2) := by
          rw [mul_assoc, ← zpow_add₀ (by norm_num : (2:ℚ) ≠ 0)]
          simp
        rw [hrw, hq1]
        gcongr
      have : ((p.1 * 2 ^ (p.2 - q.2).toNat : ℕ) : ℚ) < ((q.1 : ℕ) : ℚ) := by
        push_cast
        rw [h2]
        linarith
      exact_mod_cast this

lemma dyTrunc_bounds (p : Dy) :
    (dyTrunc p : ℚ) ≤ dyVal p ∧ dyVal p < (dyTrunc p : ℚ) + 1 := by
  unfold dyTrunc dyVal
  split_ifs with he
  · have heq : ((p.1 * 2 ^ p.2.toNat : ℕ) : ℚ) = (p.1 : ℚ) * (2 : ℚ) ^ p.2 := by
      push_cast
      rw [zpow_toNat_eq he]
    rw [heq]
    constructor
    · exact le_refl _
    · linarith
  · push_neg at he
    have hk : (0 : ℤ) ≤ -p.2 := by omega
    have hval : (p.1 : ℚ) * (2 : ℚ) ^ p.2 =
        (p.1 : ℚ) / ((2 ^ (-p.2).toNat : ℕ) : ℚ) := by
      push_cast
      rw [zpow_toNat_eq hk, zpow_neg, div_eq_mul_inv, inv_inv]
    have hfloor : (p.1 / 2 ^ (-p.2).toNat : ℕ) =
        ⌊(p.1 : ℚ) / ((2 ^ (-p.2).toNat : ℕ) : ℚ)⌋₊ := by
      rw [Nat.floor_div_nat]
      simp
    rw [hval, hfloor]
    constructor
    · exact Nat.floor_le (by positivity)
    · exact Nat.lt_floor_add_one _

lemma dyVal_pos_mant {p : Dy} (h : 0 < dyVal p) : 1 ≤ p.1 := by
  rcases Nat.eq_zero_or_pos p.1 with h0 | h1
  · exfalso
    unfold dyVal at h
    rw [h0] at h
    simp at h
  · exact h1

lemma fpMul_bounds (p q : Dy) (hp : 1 ≤ p.1) (hq : 1 ≤ q.1) :
    (dyVal p * dyVal q) * (1 - fpEps) ≤ dyVal (fpMul p q) ∧
      dyVal (fpMul p q) ≤ (dyVal p * dyVal q) * (1 + fpEps) := by
  have hm : 1 ≤ p.1 * q.1 := Nat.one_le_iff_ne_zero.mpr (Nat.mul_ne_zero (by omega) (by omega))
  have hb := fpRound53_bounds (p.1 * q.1) (p.2 + q.2) hm
  have hval : ((p.1 * q.1 : ℕ) : ℚ) * (2 : ℚ) ^ (p.2 + q.2) = dyVal p * dyVal q := by
    unfold dyVal
    push_cast
    rw [zpow_add₀ (by norm_num : (2:ℚ) ≠ 0)]
    ring
  rw [hval] at hb
  unfold fpMul
  exact hb

lemma fpDiv_pos (a b : ℕ) (ha : 1 ≤ a) (hb : 1 ≤ b) : 0 < dyVal (fpDiv a b) := by
  have haq : (0:ℚ) < (a:ℚ) := by exact_mod_cast ha
  have hbq : (0:ℚ) < (b:ℚ) := by exact_mod_cast hb
  have h := (fpDiv_bounds a b ha hb).1
  have hε : fpEps = 1 / 2 ^ 53 := rfl
  rw [hε] at h
  linarith [div_pos haq hbq]

lemma fpDiv_bounds_mul (a b : ℕ) (ha : 1 ≤ a) (hb : 1 ≤ b) :
    (a : ℚ) * (1 - fpEps) ≤ dyVal (fpDiv a b) * b ∧
      dyVal (fpDiv a b) * b ≤ (a : ℚ) * (1 + fpEps) := by
  have hbq : (0:ℚ) < (b:ℚ) := by exact_mod_cast hb
  obtain ⟨h1, h2⟩ := fpDiv_bounds a b ha hb
  constructor
  · rw [div_mul_eq_mul_div, div_le_iff₀ hbq] at h1
    linarith
  · rw [div_mul_eq_mul_div, le_div_iff₀ hbq] at h2
    linarith

lemma natDiv_mul_bounds (n c : ℕ) (hc : 0 < c) :
    ((n / c : ℕ) : ℚ) * c ≤ (n : ℚ) ∧ (n : ℚ) < (((n / c : ℕ) : ℚ) + 1) * c := by
  have hle : n / c * c ≤ n := Nat.div_mul_le_self n c
  have hlt : n < (n / c + 1) * c := by
    calc n = c * (n / c) + n % c := (Nat.div_add_mod n c).symm
      _ < c * (n / c) + c := Nat.add_lt_add_left (Nat.mod_lt n hc) _
      _ = (n / c + 1) * c := by ring
  constructor
  · exact_mod_cast hle
  · exact_mod_cast hlt

lemma natDiv_mul_bounds2 (a b c : ℕ) (hc : 0 < c) :
    ((a * b / c : ℕ) : ℚ) * c ≤ (a : ℚ) * b ∧
      (a : ℚ) * b < (((a * b / c : ℕ) : ℚ) + 1) * c := by
  have hres := natDiv_mul_bounds (a * b) c hc
  have hcast : ((a * b : ℕ) : ℚ) = (a : ℚ) * b := by push_cast; ring
  rw [hcast] at hres
  exact hres

/-- Counterexample to claim C1 as stated: at `(w, h, bw, bh) =
(49, 1, 49, 1)` the program takes the `otherwise` branch and computes
`int(1/49 * 49)`; binary64 arithmetic gives `1/49 * 49 =
0.9999999999999999 < 1`, so the returned height is `0`, while the
claim's exact proportional truncation `h * bw / w = 1 * 49 / 49`
is `1`. -/
theorem resize_to_fit_bounding_box_counterexample :
    resize_to_fit_bounding_box 49 1 49 1 = (49, 0) ∧ 1 * 49 / 49 = 1 := by
  constructor
  · decide
  · decide

/-- Claim C1 as amended: for positive dimensions up to `2^20` the branch
rule holds with the ratio comparison performed in binary64 (as the
program performs it), the fixed dimension equals its box dimension
exactly, the scaled dimension lies within one unit of the truncated
exact proportional fit, and both returned dimensions fit in the box. -/
theorem resize_to_fit_bounding_box_amended
    (w h bw bh nw nh : ℕ)
    (hw : 0 < w) (hh : 0 < h) (hbw : 0 < bw) (hbh : 0 < bh)
    (hwB : w ≤ 2 ^ 20) (hhB : h ≤ 2 ^ 20) (hbwB : bw ≤ 2 ^ 20) (hbhB : bh ≤ 2 ^ 20)
    (heq : resize_to_fit_bounding_box w h bw bh = (nw, nh)) :
    FloatFitsSpec w h bw bh nw nh := by
  have hε : fpEps = 1 / 2 ^ 53 := rfl
  have hw1 : 1 ≤ w := by omega
  have hh1 : 1 ≤ h := by omega
  have hbw1 : 1 ≤ bw := by omega
  have hbh1 : 1 ≤ bh := by omega
  have hWq : (0:ℚ) < (w:ℚ) := by exact_mod_cast hw
  have hHq : (0:ℚ) < (h:ℚ) := by exact_mod_cast hh
  have hBWq : (0:ℚ) < (bw:ℚ) := by exact_mod_cast hbw
  have hBHq : (0:ℚ) < (bh:ℚ) := by exact_mod_cast hbh
  have hW1 : (1:ℚ) ≤ (w:ℚ) := by exact_mod_cast hw1
  have hH1 : (1:ℚ) ≤ (h:ℚ) := by exact_mod_cast hh1
  have hWB : (w:ℚ) ≤ 2 ^ 20 := by exact_mod_cast hwB
  have hHB : (h:ℚ) ≤ 2 ^ 20 := by exact_mod_cast hhB
  have hBWB : (bw:ℚ) ≤ 2 ^ 20 := by exact_mod_cast hbwB
  have hBHB : (bh:ℚ) ≤ 2 ^ 20 := by exact_mod_cast hbhB
  have hcm : (0:ℚ) ≤ 1 - 1 / 2 ^ 53 := by norm_num
  have hcp : (0:ℚ) ≤ 1 + 1 / 2 ^ 53 := by norm_num
  obtain ⟨hu1, hu2⟩ := fpDiv_bounds_mul w h hw1 hh1
  obtain ⟨hv1, hv2⟩ := fpDiv_bounds_mul bw bh hbw1 hbh1
  rw [hε] at hu1 hu2 hv1 hv2
  have hWBH : (w:ℚ) * bh ≤ 2 ^ 40 := by
    have hm := mul_le_mul hWB hBHB hBHq.le (by norm_num : (0:ℚ) ≤ 2 ^ 20)
    linarith
  have hHBW : (h:ℚ) * bw ≤ 2 ^ 40 := by
    have hm := mul_le_mul hHB hBWB hBWq.le (by norm_num : (0:ℚ) ≤ 2 ^ 20)
    linarith
  unfold resize_to_fit_bounding_box at heq
  unfold FloatFitsSpec
  by_cases hlt : dyLt (fpDiv w h) (fpDiv bw bh) = true
  · rw [if_pos hlt] at heq
    rw [if_pos hlt]
    injection heq with hnw hnh
    subst hnw
    subst hnh
    have hint : int2fp bh = (bh, 0) :=
      int2fp_exact bh (lt_of_le_of_lt hbhB (by norm_num))
    rw [hint]
    have hupos : 0 < dyVal (fpDiv w h) := fpDiv_pos w h hw1 hh1
    have hmant1 : 1 ≤ (fpDiv w h).1 := dyVal_pos_mant hupos
    have hmant2 : 1 ≤ ((bh : ℕ), (0 : ℤ)).1 := hbh1
    obtain ⟨hA1, hA2⟩ := fpMul_bounds (fpDiv w h) (bh, 0) hmant1 hmant2
    have hdybh : dyVal ((bh : ℕ), (0 : ℤ)) = (bh:ℚ) := by simp [dyVal]
    rw [hdybh, hε] at hA1 hA2
    obtain ⟨htr1, htr2⟩ := dyTrunc_bounds (fpMul (fpDiv w h) (bh, 0))
    obtain ⟨hF1, hF2⟩ := natDiv_mul_bounds2 w bh h hh
    have huv : dyVal (fpDiv w h) < dyVal (fpDiv bw bh) := (dyLt_iff _ _).mp hlt
    have hNle : (dyTrunc (fpMul (fpDiv w h) ((bh : ℕ), (0 : ℤ))) : ℚ) < (bw:ℚ) + 1 := by
      have p2 := mul_le_mul_of_nonneg_right huv.le hBHq.le
      linarith [htr1, hA2, hv2, hBWB]
    have hc1 : ((w * bh / h : ℕ) : ℚ) <
        (dyTrunc (fpMul (fpDiv w h) ((bh : ℕ), (0 : ℤ))) : ℚ) + 2 := by
      by_contra hcon
      push_neg at hcon
      have p3 := mul_le_mul_of_nonneg_right hu1 (mul_nonneg hBHq.le hcm)
      have p4 := mul_le_mul_of_nonneg_right hA1 hHq.le
      have p5 := mul_lt_mul_of_pos_right htr2 hHq
      have p6 := mul_le_mul_of_nonneg_right hcon hHq.le
      linarith [hF1, hWBH, hH1]
    have hc2 : (dyTrunc (fpMul (fpDiv w h) ((bh : ℕ), (0 : ℤ))) : ℚ) <
        ((w * bh / h : ℕ) : ℚ) + 2 := by
      by_contra hcon
      push_neg at hcon
      have p7 := mul_le_mul_of_nonneg_right hu2 (mul_nonneg hBHq.le hcp)
      have p8 := mul_le_mul_of_nonneg_right hA2 hHq.le
      have p9 := mul_le_mul_of_nonneg_right htr1 hHq.le
      have p10 := mul_le_mul_of_nonneg_right hcon hHq.le
      linarith [hF2, hWBH, hH1]
    have g1 : dyTrunc (fpMul (fpDiv w h) ((bh : ℕ), (0 : ℤ))) < bw + 1 := by
      exact_mod_cast hNle
    have g2 : w * bh / h < dyTrunc (fpMul (fpDiv w h) ((bh : ℕ), (0 : ℤ))) + 2 := by
      exact_mod_cast hc1
    have g3 : dyTrunc (fpMul (fpDiv w h) ((bh : ℕ), (0 : ℤ))) < w * bh / h + 2 := by
      exact_mod_cast hc2
    exact ⟨by omega, le_refl bh, rfl, by omega, by omega⟩
  · rw [if_neg hlt] at heq
    rw [if_neg hlt]
    injection heq with hnw hnh
    subst hnw
    subst hnh
    have hint : int2fp bw = (bw, 0) :=
      int2fp_exact bw (lt_of_le_of_lt hbwB (by norm_num))
    rw [hint]
    have hupos2 : 0 < dyVal (fpDiv h w) := fpDiv_pos h w hh1 hw1
    have hmant1 : 1 ≤ (fpDiv h w).1 := dyVal_pos_mant hupos2
    have hmant2 : 1 ≤ ((bw : ℕ), (0 : ℤ)).1 := hbw1
    obtain ⟨hA1, hA2⟩ := fpMul_bounds (fpDiv h w) (bw, 0) hmant1 hmant2
    have hdybw : dyVal ((bw : ℕ), (0 : ℤ)) = (bw:ℚ) := by simp [dyVal]
    rw [hdybw, hε] at hA1 hA2
    obtain ⟨htr1, htr2⟩ := dyTrunc_bounds (fpMul (fpDiv h w) (bw, 0))
    obtain ⟨hu21, hu22⟩ := fpDiv_bounds_mul h w hh1 hw1
    rw [hε] at hu21 hu22
    obtain ⟨hF1, hF2⟩ := natDiv_mul_bounds2 h bw w hw
    have hvu : dyVal (fpDiv bw bh) ≤ dyVal (fpDiv w h) := by
      by_contra hcon
      push_neg at hcon
      exact hlt ((dyLt_iff _ _).mpr hcon)
    have hNle : (dyTrunc (fpMul (fpDiv h w) ((bw : ℕ), (0 : ℤ))) : ℚ) < (bh:ℚ) + 1 := by
      by_contra hcon
      push_neg at hcon
      have s1 := mul_le_mul_of_nonneg_right hA2 hWq.le
      have s2 := mul_le_mul_of_nonneg_right hu22 (mul_nonneg hBWq.le hcp)
      have s3 := mul_le_mul_of_nonneg_right hvu hBHq.le
      have s4 := mul_le_mul_of_nonneg_right hu2 hBHq.le
      have s5c : (bw:ℚ) * (1 - 1 / 2 ^ 53) ≤ dyVal (fpDiv w h) * bh := by
        linarith [hv1, s3]
      have s5 := mul_le_mul_of_nonneg_right s5c hHq.le
      have s6 := mul_le_mul_of_nonneg_right hcon (mul_nonneg hWq.le hcm)
      have s7 := mul_le_mul_of_nonneg_right htr1 (mul_nonneg hWq.le hcm)
      linarith [hWBH, hW1]
    have hc1 : ((h * bw / w : ℕ) : ℚ) <
        (dyTrunc (fpMul (fpDiv h w) ((bw : ℕ), (0 : ℤ))) : ℚ) + 2 := by
      by_contra hcon
      push_neg at hcon
      have p3 := mul_le_mul_of_nonneg_right hu21 (mul_nonneg hBWq.le hcm)
      have p4 := mul_le_mul_of_nonneg_right hA1 hWq.le
      have p5 := mul_lt_mul_of_pos_right htr2 hWq
      have p6 := mul_le_mul_of_nonneg_right hcon hWq.le
      linarith [hF1, hHBW, hW1]
    have hc2 : (dyTrunc (fpMul (fpDiv h w) ((bw : ℕ), (0 : ℤ))) : ℚ) <
        ((h * bw / w : ℕ) : ℚ) + 2 := by
      by_contra hcon
      push_neg at hcon
      have p7 := mul_le_mul_of_nonneg_right hu22 (mul_nonneg hBWq.le hcp)
      have p8 := mul_le_mul_of_nonneg_right hA2 hWq.le
      have p9 := mul_le_mul_of_nonneg_right htr1 hWq.le
      have p10 := mul_le_mul_of_nonneg_right hcon hWq.le
      linarith [hF2, hHBW, hW1]
    have g1 : dyTrunc (fpMul (fpDiv h w) ((bw : ℕ), (0 : ℤ))) < bh + 1 := by
      exact_mod_cast hNle
    have g2 : h * bw / w < dyTrunc (fpMul (fpDiv h w) ((bw : ℕ), (0 : ℤ))) + 2 := by
      exact_mod_cast hc1
    have g3 : dyTrunc (fpMul (fpDiv h w) ((bw : ℕ), (0 : ℤ))) < h * bw / w + 2 := by
      exact_mod_cast hc2
    exact ⟨le_refl bw, by omega, rfl, by omega, by omega⟩

/-- Witness for the amended claim C1: a 20x10 image in an 8x9 box keeps
the width at 8 and scales the height to 4, which here coincides with the
truncated proportional fit `10 * 8 / 20 = 4`. -/
theorem resize_to_fit_bounding_box_amended_witness :
    resize_to_fit_bounding_box 20 10 8 9 = (8, 4) ∧
      FloatFitsSpec 20 10 8 9 8 4 :=
  ⟨by decide, resize_to_fit_bounding_box_amended 20 10 8 9 8 4 (by decide)
    (by decide) (by decide) (by decide) (by decide) (by decide) (by decide)
    (by decide) (by decide)⟩

lemma mem_colHits {w h : ℕ} {p : ℕ → ℕ → Bool} {x : ℕ} :
    x ∈ colHits w h p ↔ x < w ∧ ∃ y, y < h ∧ p x y = true := by
  simp [colHits, List.mem_filter, List.mem_range, List.any_eq_true]

lemma mem_rowHits {w h : ℕ} {p : ℕ → ℕ → Bool} {y : ℕ} :
    y ∈ rowHits w h p ↔ y < h ∧ ∃ x, x < w ∧ p x y = true := by
  simp [rowHits, List.mem_filter, List.mem_range, List.any_eq_true]

/-- If some in-range pixel satisfies the content predicate, `bboxOf`
returns the smallest box containing every such pixel. -/
lemma bboxOf_tight (w h : ℕ) (p : ℕ → ℕ → Bool)
    (hne : ∃ x, x < w ∧ ∃ y, y < h ∧ p x y = true) :
    ∃ bb, bboxOf w h p = some bb ∧ IsTightBBox w h p bb := by
  obtain ⟨x0, hx0w, y0, hy0h, hp0⟩ := hne
  have hx0 : x0 ∈ colHits w h p := mem_colHits.2 ⟨hx0w, y0, hy0h, hp0⟩
  have hy0 : y0 ∈ rowHits w h p := mem_rowHits.2 ⟨hy0h, x0, hx0w, hp0⟩
  have hcne : colHits w h p ≠ [] := List.ne_nil_of_mem hx0
  have hrne : rowHits w h p ≠ [] := List.ne_nil_of_mem hy0
  obtain ⟨l, hl⟩ : ∃ l, (colHits w h p).argmin id = some l := by
    cases hmin : (colHits w h p).argmin id with
    | none => exact absurd (List.argmin_eq_none.1 hmin) hcne
    | some l => exact ⟨l, rfl⟩
  obtain ⟨r, hr⟩ : ∃ r, (colHits w h p).argmax id = some r := by
    cases hmax : (colHits w h p).argmax id with
    | none => exact absurd (List.argmax_eq_none.1 hmax) hcne
    | some r => exact ⟨r, rfl⟩
  obtain ⟨t, ht⟩ : ∃ t, (rowHits w h p).argmin id = some t := by
    cases hmin : (rowHits w h p).argmin id with
    | none => exact absurd (List.argmin_eq_none.1 hmin) hrne
    | some t => exact ⟨t, rfl⟩
  obtain ⟨b, hb⟩ : ∃ b, (rowHits w h p).argmax id = some b := by
    cases hmax : (rowHits w h p).argmax id with
    | none => exact absurd (List.argmax_eq_none.1 hmax) hrne
    | some b => exact ⟨b, rfl⟩
  have hlmem : l ∈ colHits w h p := List.argmin_mem hl
  have hrmem : r ∈ colHits w h p := List.argmax_mem hr
  have htmem : t ∈ rowHits w h p := List.argmin_mem ht
  have hbmem : b ∈ rowHits w h p := List.argmax_mem hb
  refine ⟨(l, t, r + 1, b + 1), by simp [bboxOf, hl, hr, ht, hb], ?_, ?_, ?_, ?_, ?_⟩
  · intro x hxw y hyh hpxy
    have hx : x ∈ colHits w h p := mem_colHits.2 ⟨hxw, y, hyh, hpxy⟩
    have hy : y ∈ rowHits w h p := mem_rowHits.2 ⟨hyh, x, hxw, hpxy⟩
    have h1 : l ≤ x := List.le_of_mem_argmin hx hl
    have h2 : x ≤ r := List.le_of_mem_argmax hx hr
    have h3 : t ≤ y := List.le_of_mem_argmin hy ht
    have h4 : y ≤ b := List.le_of_mem_argmax hy hb
    exact ⟨h1, Nat.lt_succ_of_le h2, h3, Nat.lt_succ_of_le h4⟩
  · obtain ⟨-, y, hy, hp⟩ := mem_colHits.1 hlmem
    exact ⟨y, hy, hp⟩
  · obtain ⟨-, y, hy, hp⟩ := mem_colHits.1 hrmem
    exact ⟨y, hy, by simpa using hp⟩
  · obtain ⟨-, x, hx, hp⟩ := mem_rowHits.1 htmem
    exact ⟨x, hx, hp⟩
  · obtain ⟨-, x, hx, hp⟩ := mem_rowHits.1 hbmem
    exact ⟨x, hx, by simpa using hp⟩

/-- Claim C4: on a decoded image whose probe pixel `(3, 3)` is fully
transparent, the detector returns the smallest axis-aligned box
containing every pixel with non-zero alpha; in particular, for an image
whose only non-transparent region occupies `10 ≤ x < 30`, `10 ≤ y < 30`,
the detected box is exactly `(10, 10, 30, 30)`. -/
theorem detect_bbox_transparent_correct :
    (∀ img : Img, alphaOf (img.pixel 3 3) = 0 →
      (∃ x, x < img.width ∧ ∃ y, y < img.height ∧ alphaNZ img x y = true) →
      ∃ bb, detect_bbox img = some bb ∧
        IsTightBBox img.width img.height (alphaNZ img) bb) ∧
    detect_bbox testSquareImg = some (10, 10, 30, 30) := by
  constructor
  · intro img hprobe hne
    have : detect_bbox img = bboxOf img.width img.height (alphaNZ img) := by
      simp [detect_bbox, hprobe]
    rw [this]
    exact bboxOf_tight img.width img.height (alphaNZ img) hne
  · decide

/-- Witness for claim C4 at the concrete 40 × 40 test image. -/
theorem detect_bbox_transparent_correct_witness :
    detect_bbox testSquareImg = some (10, 10, 30, 30) ∧
    ∃ bb, detect_bbox testSquareImg = some bb ∧
      IsTightBBox testSquareImg.width testSquareImg.height
        (alphaNZ testSquareImg) bb :=
  ⟨detect_bbox_transparent_correct.2,
    detect_bbox_transparent_correct.1 testSquareImg (by decide) (by decide)⟩

/-- Counterexample to claim C2 as stated: four comma-separated values
whose fourth is `0` do not map to `[v1, v2, v3, v4]` (Python's `if d:`
treats the parsed `0` as falsy and falls through to the three-value
rule), and the empty string is not mapped to `[0, 0, 0, 0]` but raises
`ValueError` inside `int("")`. -/
theorem parse_margin_counterexample :
    parse_margin "1,2,3,0" = some [1, 2, 3, 2] ∧
      some [1, 2, 3, 2] ≠ (some [1, 2, 3, 0] : Option (List ℕ)) ∧
      parse_margin "" = none := by decide

/-- Claim C2 as amended: the broadcast rules hold whenever the value
selecting the branch is non-zero, every parsed value is sign-normalized,
the absent option's default string `"0"` yields `[0, 0, 0, 0]`, but the
empty string is a parse error, and a trailing zero value falls through
to the next shorter rule. -/
theorem parse_margin_amended :
    parse_margin "5" = some [5, 5, 5, 5] ∧
    parse_margin "1,2" = some [1, 2, 1, 2] ∧
    parse_margin "1,2,3" = some [1, 2, 3, 2] ∧
    parse_margin "1,2,3,4" = some [1, 2, 3, 4] ∧
    parse_margin "0" = some [0, 0, 0, 0] ∧
    parse_margin "-5" = some [5, 5, 5, 5] ∧
    parse_margin "" = none ∧
    (∀ a b c d : ℕ, d ≠ 0 → margin_broadcast [a, b, c, d] = [a, b, c, d]) ∧
    (∀ a b c : ℕ, c ≠ 0 → margin_broadcast [a, b, c] = [a, b, c, b]) ∧
    (∀ a b : ℕ, b ≠ 0 → margin_broadcast [a, b] = [a, b, a, b]) ∧
    (∀ a : ℕ, margin_broadcast [a] = [a, a, a, a]) ∧
    (∀ vs : List ℕ, vs.length ≤ 3 →
      margin_broadcast (vs ++ [0]) = margin_broadcast vs) := by
  refine ⟨by decide, by decide, by decide, by decide, by decide, by decide,
    by decide, ?_, ?_, ?_, ?_, ?_⟩
  · intro a b c d hd
    simp [margin_broadcast, pyTruthy, hd]
  · intro a b c hc
    by_cases hb : b = 0 <;> simp [margin_broadcast, pyTruthy, hc, hb]
  · intro a b hb
    simp [margin_broadcast, pyTruthy, hb]
  · intro a
    by_cases ha : a = 0 <;> simp [margin_broadcast, pyTruthy, ha]
  · intro vs hlen
    rcases vs with _ | ⟨a, _ | ⟨b, _ | ⟨c, _ | ⟨d, tl⟩⟩⟩⟩
    · decide
    · by_cases ha : a = 0 <;> simp [margin_broadcast, pyTruthy, ha]
    · by_cases ha : a = 0 <;> by_cases hb : b = 0 <;>
        simp [margin_broadcast, pyTruthy, ha, hb]
    · by_cases ha : a = 0 <;> by_cases hb : b = 0 <;> by_cases hc : c = 0 <;>
        simp [margin_broadcast, pyTruthy, ha, hb, hc]
    · simp at hlen

/-- Witness for the amended claim C2: the one-value rule concretely, and
the four-value rule at `[1, 2, 3, 4]`. -/
theorem parse_margin_amended_witness :
    parse_margin "5" = some [5, 5, 5, 5] ∧
      margin_broadcast [1, 2, 3, 4] = [1, 2, 3, 4] :=
  ⟨parse_margin_amended.1,
    parse_margin_amended.2.2.2.2.2.2.2.1 1 2 3 4 (by decide)⟩

/-- Claim C10: values after the fourth are silently ignored — the
cascade only reads the first four slots, and `"1,2,3,4,5"` parses
without error to `[1, 2, 3, 4]`. -/
theorem parse_margin_ignores_extra_values :
    (∀ vs : List ℕ, margin_broadcast vs = margin_broadcast (vs.take 4)) ∧
    parse_margin "1,2,3,4,5" = some [1, 2, 3, 4] := by
  constructor
  · intro vs
    have h0 : (vs.take 4)[0]? = vs[0]? := List.getElem?_take_of_lt (by norm_num)
    have h1 : (vs.take 4)[1]? = vs[1]? := List.getElem?_take_of_lt (by norm_num)
    have h2 : (vs.take 4)[2]? = vs[2]? := List.getElem?_take_of_lt (by norm_num)
    have h3 : (vs.take 4)[3]? = vs[3]? := List.getElem?_take_of_lt (by norm_num)
    simp only [margin_broadcast, h0, h1, h2, h3]
  · decide

/-- Claim C3: the paste offset of the batch driver is, on each axis
independently, exactly the spec's
`margin_near + (canvas_dim − margin_near − margin_far − content_dim) // 2`
with floor division. -/
theorem paste_offset_is_center_offset :
    ∀ (cfg : Config) (rw rh : ℕ),
      pastePos cfg rw rh =
        (center_offset cfg.width rw cfg.margin.left cfg.margin.right,
          center_offset cfg.height rh cfg.margin.top cfg.margin.bottom) :=
  fun _ _ _ => rfl

lemma hexDig_le {c : Char} {v : ℕ} (h : hexDig c = some v) : v ≤ 15 := by
  unfold hexDig at h
  split_ifs at h with h1 h2 h3 <;> simp_all <;> omega

lemma hex2rgb_isSome_iff (s : String) : (hex2rgb s).isSome ↔ SixHex s := by
  obtain ⟨cs⟩ := s
  show (hex2rgb (String.mk cs)).isSome ↔ SixHex (String.mk cs)
  unfold hex2rgb SixHex
  rcases cs with _ | ⟨a, _ | ⟨b, _ | ⟨c, _ | ⟨d, _ | ⟨e, _ | ⟨f, _ | ⟨g, t⟩⟩⟩⟩⟩⟩⟩
  · simp
  · simp
  · simp
  · simp
  · simp
  · simp
  · cases ha : hexDig a <;> cases hb : hexDig b <;> cases hc : hexDig c <;>
      cases hd : hexDig d <;> cases he : hexDig e <;> cases hf : hexDig f <;>
      simp_all [isHexDig]
  · simp

lemma hex2rgb_bounds {s : String} {v : List ℕ} (h : hex2rgb s = some v) :
    v.length = 3 ∧ ∀ x ∈ v, x ≤ 255 := by
  unfold hex2rgb at h
  split at h
  · split at h
    · rename_i h1 h2 h3 h4 h5 h6
      cases h
      refine ⟨rfl, ?_⟩
      intro x hx
      have b1 := hexDig_le h1
      have b2 := hexDig_le h2
      have b3 := hexDig_le h3
      have b4 := hexDig_le h4
      have b5 := hexDig_le h5
      have b6 := hexDig_le h6
      simp at hx
      rcases hx with rfl | rfl | rfl <;> omega
    · exact absurd h (by simp)
  · exact absurd h (by simp)

lemma is_hex_of_sixHex {s : String} (h : SixHex s) : is_hex s = true := by
  obtain ⟨hlen, hall⟩ := h
  have htake : s.data.take 6 = s.data := List.take_of_length_le (le_of_eq hlen)
  simp [is_hex, htake, hlen, List.all_eq_true]
  exact hall

lemma parseColorField_ok_iff (s flag : String) :
    (∃ v, parseColorField (some s) flag = .ok (some v)) ↔ SixHex s := by
  constructor
  · rintro ⟨v, hv⟩
    simp only [parseColorField] at hv
    split_ifs at hv with h1 h2
    · simp at hv
    · cases hh : hex2rgb s with
      | none => rw [hh] at hv; simp at hv
      | some c => exact (hex2rgb_isSome_iff s).1 (by rw [hh]; rfl)
  · intro hs
    have h6 := (hex2rgb_isSome_iff s).2 hs
    obtain ⟨v, hv⟩ := Option.isSome_iff_exists.1 h6
    have hhex := is_hex_of_sixHex hs
    have hne : s ≠ "" := by
      intro h
      subst h
      simp [SixHex] at hs
    exact ⟨v, by simp only [parseColorField]; rw [if_neg hne, if_pos hhex, hv]⟩

lemma parseColorField_error_of (s flag : String) (hne : s ≠ "")
    (hnot : ¬ SixHex s) : ∃ e, parseColorField (some s) flag = .error e := by
  simp only [parseColorField]
  rw [if_neg hne]
  by_cases hhex : is_hex s = true
  · rw [if_pos hhex]
    cases hh : hex2rgb s with
    | none => exact ⟨_, rfl⟩
    | some c => exact absurd ((hex2rgb_isSome_iff s).1 (by rw [hh]; rfl)) hnot
  · rw [if_neg hhex]
    exact ⟨_, rfl⟩

/-- Counterexample to claim C5 as stated: the empty string is not six
hexadecimal digits, yet `--color ""` is not a fatal validation error —
Python's `if args.color:` treats it as falsy and skips validation, so
`parse_args` succeeds with no colour override. -/
theorem hex_color_counterexample :
    (¬ SixHex "") ∧
      parse_args rawEmptyColor =
        .ok ⟨100, 100, ⟨0, 0, 0, 0⟩, none, none, false, "cropped"⟩ :=
  ⟨by decide, rfl⟩

/-- Claim C5 as amended: a non-empty colour-override string is accepted
iff it is exactly six hexadecimal digits (case-insensitively); accepted
strings parse to three channel values in `0`-`255`; every non-empty
non-conforming string aborts `parse_args` fatally (whether passed as
`--color` or `--background`); but the empty string is treated as an
absent override. -/
theorem hex_color_validation_amended :
    (∀ s : String,
      (∃ v, parseColorField (some s) "--color" = .ok (some v)) ↔ SixHex s) ∧
    (∀ s flag : String, ∀ v,
      parseColorField (some s) flag = .ok (some v) →
        v.length = 3 ∧ ∀ x ∈ v, x ≤ 255) ∧
    parseColorField (some "ffab03") "--color" = .ok (some [255, 171, 3]) ∧
    parseColorField (some "FFAB03") "--color" = .ok (some [255, 171, 3]) ∧
    (∃ e, parseColorField (some "zz0000") "--color" = .error e) ∧
    (∃ e, parseColorField (some "ab012") "--color" = .error e) ∧
    (∀ s flag : String, s ≠ "" → ¬ SixHex s →
      ∃ e, parseColorField (some s) flag = .error e) ∧
    parseColorField (some "") "--color" = .ok none ∧
    (∀ raw : RawArgs, ∀ s, raw.color = some s → s ≠ "" → ¬ SixHex s →
      ∃ e, parse_args raw = .error e) ∧
    (∀ raw : RawArgs, ∀ s, raw.background = some s → s ≠ "" → ¬ SixHex s →
      ∃ e, parse_args raw = .error e) := by
  refine ⟨fun s => parseColorField_ok_iff s "--color", ?_, rfl, rfl,
    ⟨_, rfl⟩, ⟨_, rfl⟩, parseColorField_error_of, rfl, ?_, ?_⟩
  · intro s flag v hv
    simp only [parseColorField] at hv
    split_ifs at hv with h1 h2
    · simp at hv
    · cases hh : hex2rgb s with
      | none => rw [hh] at hv; simp at hv
      | some c =>
        rw [hh] at hv
        simp at hv
        subst hv
        exact hex2rgb_bounds hh
  · intro raw s hcol hne hnot
    obtain ⟨e, he⟩ := parseColorField_error_of s "--color" hne hnot
    exact ⟨e, by unfold parse_args; rw [hcol, he]⟩
  · intro raw s hbg hne hnot
    unfold parse_args
    cases hc : parseColorField raw.color "--color" with
    | error e => exact ⟨e, rfl⟩
    | ok c? =>
      obtain ⟨e, he⟩ := parseColorField_error_of s "--background" hne hnot
      exact ⟨e, by rw [hbg, he]⟩

/-- Witness for the amended claim C5: `"ffab03"` is accepted with
channel values `(255, 171, 3)`, and `"zz0000"` is rejected fatally. -/
theorem hex_color_validation_amended_witness :
    (∃ v, parseColorField (some "ffab03") "--color" = .ok (some v)) ∧
      (∃ e, parseColorField (some "zz0000") "--color" = .error e) :=
  ⟨(hex_color_validation_amended.1 "ffab03").2 (by decide),
    hex_color_validation_amended.2.2.2.2.2.2.1 "zz0000" "--color" (by decide)
      (by decide)⟩

/-- Claim C6: `parse_args` sign-normalizes width and height, and any
surviving configuration satisfies `width > margin.left + margin.right`
and `height > margin.top + margin.bottom`; if the (parsed) margins
violate either inequality, the whole run aborts fatally — the `.error`
outcome of `run_raw` carries no events, so the output directory is not
created and no input file is opened. -/
theorem parse_args_validates :
    ∀ raw : RawArgs,
      (∀ cfg, parse_args raw = .ok cfg →
        cfg.width = raw.width.natAbs ∧ cfg.height = raw.height.natAbs ∧
        cfg.margin.right + cfg.margin.left < cfg.width ∧
        cfg.margin.top + cfg.margin.bottom < cfg.height) ∧
      (∀ m, parse_margin raw.margin = some m →
        (¬ (m.getD 1 0 + m.getD 3 0 < raw.width.natAbs) ∨
          ¬ (m.getD 0 0 + m.getD 2 0 < raw.height.natAbs)) →
        ∀ (lanczos : Img → ℕ → ℕ → Img) (decode : String → Option Img),
          ∃ e, run_raw lanczos decode raw = .error e) := by
  intro raw
  constructor
  · intro cfg hok
    unfold parse_args at hok
    cases hc : parseColorField raw.color "--color" with
    | error e => simp [hc] at hok
    | ok c? =>
      simp only [hc] at hok
      cases hb : parseColorField raw.background "--background" with
      | error e => simp [hb] at hok
      | ok b? =>
        simp only [hb] at hok
        cases hm : parse_margin raw.margin with
        | none => simp [hm] at hok
        | some m =>
          simp only [hm] at hok
          split_ifs at hok with h1 h2
          · simp only [Except.ok.injEq] at hok
            subst hok
            exact ⟨rfl, rfl, h1, h2⟩
  · intro m hm hviol lanczos decode
    simp only [List.getD_eq_getElem?_getD] at hviol
    cases hc : parseColorField raw.color "--color" with
    | error e =>
      refine ⟨e, ?_⟩
      unfold run_raw
      have hpa : parse_args raw = .error e := by
        unfold parse_args
        simp [hc]
      rw [hpa]
    | ok c? =>
      cases hb : parseColorField raw.background "--background" with
      | error e =>
        refine ⟨e, ?_⟩
        unfold run_raw
        have hpa : parse_args raw = .error e := by
          unfold parse_args
          simp [hc, hb]
        rw [hpa]
      | ok b? =>
        by_cases h1 : m[1]?.getD 0 + m[3]?.getD 0 < raw.width.natAbs
        · have h2 : ¬ (m[0]?.getD 0 + m[2]?.getD 0 < raw.height.natAbs) := by
            rcases hviol with h | h
            · exact absurd h1 h
            · exact h
          refine ⟨"AssertionError: Height should be greater than sum of margins", ?_⟩
          unfold run_raw
          have hpa : parse_args raw =
              .error "AssertionError: Height should be greater than sum of margins" := by
            unfold parse_args
            simp [hc, hb, hm, h1, h2]
          rw [hpa]
        · refine ⟨"AssertionError: Width should be greater than sum of margins", ?_⟩
          unfold run_raw
          have hpa : parse_args raw =
              .error "AssertionError: Width should be greater than sum of margins" := by
            unfold parse_args
            simp [hc, hb, hm, h1]
          rw [hpa]

/-- Witness for claim C6: `--width -10 --margin 20` aborts the run
fatally (margins exceed the signed-normalized width). -/
theorem parse_args_validates_witness :
    ∃ e, run_raw demoLanczos demoDecode rawBadMargin = .error e :=
  (parse_args_validates rawBadMargin).2 [20, 20, 20, 20] (by decide)
    (Or.inl (by decide)) demoLanczos demoDecode

lemma pixel_mkImg (w h : ℕ) (f : ℕ → ℕ → Pix) {x y : ℕ} (hx : x < w)
    (hy : y < h) : (mkImg w h f).pixel x y = f x y := by
  unfold mkImg Img.pixel
  simp only [List.getD_eq_getElem?_getD, List.getElem?_map,
    List.getElem?_range hy, Option.map_some', Option.getD_some,
    List.getElem?_range hx]

lemma mkImg_WF (w h : ℕ) (f : ℕ → ℕ → Pix) : (mkImg w h f).WF := by
  refine ⟨by simp [mkImg], ?_⟩
  intro row hrow
  simp only [mkImg, List.mem_map] at hrow
  obtain ⟨y, -, rfl⟩ := hrow
  simp [mkImg]

lemma splitChannel_access (img : Img) (sel : Pix → ℕ) {x y : ℕ}
    (hWF : img.WF) (hx : x < img.width) (hy : y < img.height) :
    ((splitChannel img sel).getD y []).getD x 0 = sel (img.pixel x y) := by
  obtain ⟨hlen, hrow⟩ := hWF
  have hy' : y < img.rows.length := by omega
  have hx' : x < (img.rows[y]).length := by
    rw [hrow (img.rows[y]) (List.getElem_mem hy')]
    exact hx
  have hx'' : x < ((img.rows[y]).map sel).length := by
    simpa using hx'
  unfold splitChannel Img.pixel
  simp only [List.getD_eq_getElem?_getD, List.getElem?_map,
    List.getElem?_eq_getElem hy', Option.map_some', Option.getD_some,
    List.getElem?_eq_getElem hx'', List.getElem?_eq_getElem hx',
    List.getElem_map]

lemma pointConst_access (plane : List (List ℕ)) (k : ℕ) {x y : ℕ}
    (hy : y < plane.length) (hx : x < (plane[y]).length) :
    ((pointConst plane k).getD y []).getD x 0 = k := by
  have hx' : x < ((plane[y]).map (fun _ => k)).length := by simpa using hx
  unfold pointConst
  simp only [List.getD_eq_getElem?_getD, List.getElem?_map,
    List.getElem?_eq_getElem hy, Option.map_some', Option.getD_some,
    List.getElem?_eq_getElem hx', List.getElem_map]

lemma splitChannel_length (img : Img) (sel : Pix → ℕ) :
    (splitChannel img sel).length = img.rows.length := by
  simp [splitChannel]

lemma splitChannel_row_length (img : Img) (sel : Pix → ℕ) {y : ℕ}
    (hy : y < img.rows.length) (hy2 : y < (splitChannel img sel).length) :
    ((splitChannel img sel)[y]).length = (img.rows[y]).length := by
  simp [splitChannel]

/-- Claim C8: with a foreground colour override, the recolouring step
replaces every pixel's R, G and B channels of the scaled foreground with
the flat override colour while leaving the per-pixel alpha channel
unchanged (and preserving the raster size); `main` applies exactly this
step when `--color` is given. -/
theorem recolor_replaces_rgb_keeps_alpha :
    (∀ (img : Img) (c : List ℕ),
      (recolor img c).width = img.width ∧ (recolor img c).height = img.height) ∧
    (∀ (img : Img) (c : List ℕ) (x y : ℕ),
      img.WF → x < img.width → y < img.height →
      (recolor img c).pixel x y =
        (c.getD 0 0, c.getD 1 0, c.getD 2 0, alphaOf (img.pixel x y))) ∧
    (∀ (cfg : Config) (img : Img) (c : List ℕ),
      cfg.color = some c → applyColor cfg img = recolor img c) := by
  refine ⟨fun _ _ => ⟨rfl, rfl⟩, ?_, ?_⟩
  · intro img c x y hWF hx hy
    obtain ⟨hlen, hrow⟩ := hWF
    have hy' : y < img.rows.length := by omega
    have hy1 : y < (splitChannel img (fun p => p.1)).length := by
      simpa [splitChannel] using hy'
    have hy2 : y < (splitChannel img (fun p => p.2.1)).length := by
      simpa [splitChannel] using hy'
    have hy3 : y < (splitChannel img (fun p => p.2.2.1)).length := by
      simpa [splitChannel] using hy'
    have hx1 : x < ((splitChannel img (fun p => p.1))[y]).length := by
      rw [splitChannel_row_length img (fun p => p.1) hy' hy1]
      rw [hrow (img.rows[y]) (List.getElem_mem hy')]
      exact hx
    have hx2 : x < ((splitChannel img (fun p => p.2.1))[y]).length := by
      rw [splitChannel_row_length img (fun p => p.2.1) hy' hy2]
      rw [hrow (img.rows[y]) (List.getElem_mem hy')]
      exact hx
    have hx3 : x < ((splitChannel img (fun p => p.2.2.1))[y]).length := by
      rw [splitChannel_row_length img (fun p => p.2.2.1) hy' hy3]
      rw [hrow (img.rows[y]) (List.getElem_mem hy')]
      exact hx
    unfold recolor mergeRGBA
    rw [pixel_mkImg _ _ _ hx hy]
    rw [pointConst_access _ _ (by simpa [splitChannel] using hy') hx1]
    rw [pointConst_access _ _ (by simpa [splitChannel] using hy') hx2]
    rw [pointConst_access _ _ (by simpa [splitChannel] using hy') hx3]
    rw [splitChannel_access img (fun p => p.2.2.2) ⟨hlen, hrow⟩ hx hy]
    rfl
  · intro cfg img c hc
    unfold applyColor
    rw [hc]

/-- Witness for claim C8: recolouring the demonstration image with
`[9, 9, 9]` at pixel `(4, 4)` (alpha 255 there) gives `(9, 9, 9, 255)`. -/
theorem recolor_replaces_rgb_keeps_alpha_witness :
    (recolor demoImg [9, 9, 9]).pixel 4 4 =
      (9, 9, 9, alphaOf (demoImg.pixel 4 4)) :=
  recolor_replaces_rgb_keeps_alpha.2.1 demoImg [9, 9, 9] 4 4
    (mkImg_WF 6 6 _) (by decide) (by decide)

lemma runLoop_congr (lanczos : Img → ℕ → ℕ → Img) (cfg : Config)
    (d1 d2 : String → Option Img) :
    ∀ paths : List String, (∀ p ∈ paths, d1 p = d2 p) →
      runLoop lanczos cfg d1 paths = runLoop lanczos cfg d2 paths := by
  intro paths
  induction paths with
  | nil => intro _; rfl
  | cons p ps ih =>
    intro h
    have hp : d1 p = d2 p := h p (List.mem_cons_self p ps)
    have hps := fun q hq => h q (List.mem_cons_of_mem p hq)
    simp only [runLoop, hp, ih hps]

/-- Claim C9: the run is a pure function of the configuration and of the
decoded content of the listed input paths — two runs over environments
that decode every input path identically produce identical event traces,
hence (the PNG encoder being deterministic) byte-identical output files. -/
theorem run_deterministic_in_inputs :
    ∀ (lanczos : Img → ℕ → ℕ → Img) (cfg : Config)
      (d1 d2 : String → Option Img) (paths : List String),
      (∀ p ∈ paths, d1 p = d2 p) →
      run lanczos cfg d1 paths = run lanczos cfg d2 paths := by
  intro lanczos cfg d1 d2 paths h
  unfold run
  rw [runLoop_congr lanczos cfg d1 d2 paths h]

/-- Witness for claim C9 at the demonstration environment. -/
theorem run_deterministic_in_inputs_witness :
    run demoLanczos demoCfg demoDecode ["a.png", "missing.png"] =
      run demoLanczos demoCfg demoDecode ["a.png", "missing.png"] :=
  run_deterministic_in_inputs demoLanczos demoCfg demoDecode demoDecode
    ["a.png", "missing.png"] (fun _ _ => rfl)

lemma runLoop_flatMap (lanczos : Img → ℕ → ℕ → Img) (cfg : Config)
    (decode : String → Option Img)
    (hwv : 0 < cfg.width - cfg.margin.left - cfg.margin.right)
    (hhv : 0 < cfg.height - cfg.margin.top - cfg.margin.bottom) :
    ∀ paths : List String,
      (∀ p ∈ paths,
        (decode p).all (fun img => 4 ≤ img.width && 4 ≤ img.height) = true) →
      runLoop lanczos cfg decode paths =
        .ok (paths.flatMap (stepEvents lanczos cfg decode)) := by
  intro paths
  induction paths with
  | nil => intro _; rfl
  | cons p ps ih =>
    intro h
    have hp := h p (List.mem_cons_self p ps)
    have hps := fun q hq => h q (List.mem_cons_of_mem p hq)
    cases hdp : decode p with
    | none =>
      simp only [runLoop, hdp, ih hps, Except.map, List.flatMap_cons,
        stepEvents, List.singleton_append]
    | some img =>
      rw [hdp] at hp
      simp only [Option.all_some] at hp
      have hsz : 4 ≤ img.width ∧ 4 ≤ img.height := by
        constructor <;> simp_all
      simp only [runLoop, hdp, if_pos hsz, if_pos (And.intro hwv hhv),
        ih hps, Except.map, List.flatMap_cons, stepEvents,
        List.singleton_append]

/-- Claim C7: with a valid configuration, if every decodable input is at
least 4 × 4 (so the probe never faults), the run succeeds — same success
outcome as a failure-free run — and its trace is exactly one event group
per input path in order: a failed decode contributes exactly one warning
and no write, a successful decode contributes exactly its output write. -/
theorem batch_driver_skips_failed_decodes :
    ∀ (lanczos : Img → ℕ → ℕ → Img) (cfg : Config)
      (decode : String → Option Img) (paths : List String),
      cfg.margin.left + cfg.margin.right < cfg.width →
      cfg.margin.top + cfg.margin.bottom < cfg.height →
      (∀ p ∈ paths,
        (decode p).all (fun img => 4 ≤ img.width && 4 ≤ img.height) = true) →
      run lanczos cfg decode paths =
        .ok (Event.mkdir cfg.output ::
          paths.flatMap (stepEvents lanczos cfg decode)) ∧
      (∀ p, decode p = none →
        stepEvents lanczos cfg decode p = [Event.warn p]) ∧
      (∀ p img, decode p = some img →
        stepEvents lanczos cfg decode p =
          [Event.write (stem p) (process lanczos cfg img)]) := by
  intro lanczos cfg decode paths hw hh hsz
  refine ⟨?_, ?_, ?_⟩
  · unfold run
    rw [runLoop_flatMap lanczos cfg decode (by omega) (by omega) paths hsz]
    rfl
  · intro p hp
    simp [stepEvents, hp]
  · intro p img hp
    simp [stepEvents, hp]

/-- Witness for claim C7: one missing path and one decodable path. -/
theorem batch_driver_skips_failed_decodes_witness :
    run demoLanczos demoCfg demoDecode ["missing.png", "a.png"] =
      .ok (Event.mkdir demoCfg.output ::
        (["missing.png", "a.png"]).flatMap
          (stepEvents demoLanczos demoCfg demoDecode)) ∧
      (∀ p, demoDecode p = none →
        stepEvents demoLanczos demoCfg demoDecode p = [Event.warn p]) ∧
      (∀ p img, demoDecode p = some img →
        stepEvents demoLanczos demoCfg demoDecode p =
          [Event.write (stem p) (process demoLanczos demoCfg img)]) :=
  batch_driver_skips_failed_decodes demoLanczos demoCfg demoDecode
    ["missing.png", "a.png"] (by decide) (by decide) (by decide)
